import Mathlib

/-
Shallow embedding of the reversible data structures and local-search
scaffolding declared in `constraint_solver/constraint_solveri.h` of the
or-tools repository, together with theorems checking the natural-language
specification of that header against the code.
-/

set_option maxHeartbeats 1000000

namespace OrTools

/- ===================== SimpleRevFIFO =====================
`SimpleRevFIFO<T>` (constraint_solveri.h, lines 149-220) is a reversible
FIFO: a linked list of 16-element chunks, grown at the head.  `pos_` is the
index of the most recently written slot of the head chunk; the head chunk
holds valid data at indices `pos_ .. 15`, older chunks are entirely full.
`Push` allocates a fresh chunk exactly when `pos_ == 0`, otherwise it
decrements `pos_` and writes in place.  The trail machinery (Solver,
NumericalRev) only matters for backtracking, which these claims do not
exercise, so the embedding keeps the plain functional content. -/

def CHUNK_SIZE : Nat := 16

structure SimpleRevFIFO (T : Type) where
  chunks : List (List T)
  pos : Nat

def SimpleRevFIFO.initial (T : Type) : SimpleRevFIFO T := ⟨[], 0⟩

/-- Embedding of `SimpleRevFIFO::Push` (lines 181-191). -/
def SimpleRevFIFO.push {T : Type} [Inhabited T] (s : SimpleRevFIFO T) (v : T) :
    SimpleRevFIFO T :=
  if s.pos = 0 then
    { chunks := ((List.replicate CHUNK_SIZE default).set (CHUNK_SIZE - 1) v) :: s.chunks,
      pos := CHUNK_SIZE - 1 }
  else
    match s.chunks with
    | [] => s
    | c :: rest => { chunks := (c.set (s.pos - 1) v) :: rest, pos := s.pos - 1 }

/-- Iteration order of `SimpleRevFIFO::Iterator` (lines 160-177): start at
`&chunks_->data_[pos_]`, walk the head chunk upwards, then each older chunk
from index 0 to 15. -/
def SimpleRevFIFO.toList {T : Type} (s : SimpleRevFIFO T) : List T :=
  match s.chunks with
  | [] => []
  | c :: rest => c.drop s.pos ++ rest.flatten

/-- Embedding of `SimpleRevFIFO::LastValue` (lines 206-209). -/
def SimpleRevFIFO.lastValue {T : Type} [Inhabited T] (s : SimpleRevFIFO T) : T :=
  match s.chunks with
  | [] => default
  | c :: _ => c.getD s.pos default

/-- Embedding of `SimpleRevFIFO::PushIfNotTop` (lines 194-198). -/
def SimpleRevFIFO.pushIfNotTop {T : Type} [Inhabited T] [DecidableEq T]
    (s : SimpleRevFIFO T) (v : T) : SimpleRevFIFO T :=
  match s.chunks with
  | [] => s.push v
  | _ :: _ => if s.lastValue = v then s else s.push v

def SimpleRevFIFO.pushAll {T : Type} [Inhabited T] (s : SimpleRevFIFO T)
    (vs : List T) : SimpleRevFIFO T :=
  vs.foldl SimpleRevFIFO.push s

/-- State invariant maintained by `Push`: every chunk has 16 slots, the write
index stays inside the head chunk, and an empty FIFO has `pos_ == 0`. -/
def SimpleRevFIFO.Inv {T : Type} (s : SimpleRevFIFO T) : Prop :=
  (∀ c ∈ s.chunks, c.length = CHUNK_SIZE) ∧
  (s.chunks.length = 0 → s.pos = 0) ∧ s.pos < CHUNK_SIZE

instance {T : Type} (s : SimpleRevFIFO T) : Decidable s.Inv :=
  inferInstanceAs (Decidable ((∀ c ∈ s.chunks, c.length = CHUNK_SIZE) ∧
    (s.chunks.length = 0 → s.pos = 0) ∧ s.pos < CHUNK_SIZE))

theorem SimpleRevFIFO.inv_initial (T : Type) : (SimpleRevFIFO.initial T).Inv := by
  refine ⟨?_, ?_, ?_⟩ <;> simp [SimpleRevFIFO.initial, CHUNK_SIZE]

theorem SimpleRevFIFO.push_eq_alloc {T : Type} [Inhabited T]
    (s : SimpleRevFIFO T) (v : T) (h0 : s.pos = 0) :
    s.push v = ⟨((List.replicate CHUNK_SIZE default).set (CHUNK_SIZE - 1) v) :: s.chunks,
                CHUNK_SIZE - 1⟩ := by
  simp [SimpleRevFIFO.push, h0]

theorem SimpleRevFIFO.push_eq_in_place {T : Type} [Inhabited T]
    (s : SimpleRevFIFO T) (v : T) (c : List T) (rest : List (List T))
    (h0 : s.pos ≠ 0) (hc : s.chunks = c :: rest) :
    s.push v = ⟨(c.set (s.pos - 1) v) :: rest, s.pos - 1⟩ := by
  simp [SimpleRevFIFO.push, h0, hc]

theorem List.drop_set_eq_cons {T : Type} (c : List T) (p : Nat) (v : T)
    (h : p < c.length) : (c.set p v).drop p = v :: c.drop (p + 1) := by
  rw [List.drop_set, if_neg (Nat.lt_irrefl p), Nat.sub_self,
      List.drop_eq_getElem_cons h]
  rfl

theorem SimpleRevFIFO.inv_push {T : Type} [Inhabited T] (s : SimpleRevFIFO T)
    (v : T) (h : s.Inv) : (s.push v).Inv := by
  obtain ⟨hlen, hnil, hpos⟩ := h
  by_cases h0 : s.pos = 0
  · rw [SimpleRevFIFO.push_eq_alloc s v h0]
    refine ⟨?_, ?_, ?_⟩
    · intro c hc
      rcases List.mem_cons.mp hc with rfl | hc
      · simp
      · exact hlen c hc
    · intro h; simp at h
    · simp [CHUNK_SIZE]
  · cases hc : s.chunks with
    | nil => exact absurd (hnil (by rw [hc]; rfl)) h0
    | cons c rest =>
      rw [SimpleRevFIFO.push_eq_in_place s v c rest h0 hc]
      refine ⟨?_, ?_, ?_⟩
      · intro c' hc'
        rcases List.mem_cons.mp hc' with rfl | hc'
        · simpa using hlen c (hc ▸ List.mem_cons_self c rest)
        · exact hlen c' (hc ▸ List.mem_cons_of_mem c hc')
      · intro h; simp at h
      · show s.pos - 1 < CHUNK_SIZE
        omega

theorem SimpleRevFIFO.toList_push {T : Type} [Inhabited T] (s : SimpleRevFIFO T)
    (v : T) (h : s.Inv) : (s.push v).toList = v :: s.toList := by
  obtain ⟨hlen, hnil, hpos⟩ := h
  by_cases h0 : s.pos = 0
  · rw [SimpleRevFIFO.push_eq_alloc s v h0]
    have h15 : CHUNK_SIZE - 1 < (List.replicate CHUNK_SIZE (default : T)).length := by
      simp [CHUNK_SIZE]
    unfold SimpleRevFIFO.toList
    simp only []
    rw [List.drop_set_eq_cons _ _ _ h15]
    have hdrop : (List.replicate CHUNK_SIZE (default : T)).drop (CHUNK_SIZE - 1 + 1) = [] := by
      apply List.drop_eq_nil_of_le; simp [CHUNK_SIZE]
    rw [hdrop]
    cases hc : s.chunks with
    | nil => simp
    | cons c rest =>
      simp only [List.flatten_cons, List.nil_append, List.cons_append]
      rw [h0, List.drop_zero]
  · cases hc : s.chunks with
    | nil => exact absurd (hnil (by rw [hc]; rfl)) h0
    | cons c rest =>
      rw [SimpleRevFIFO.push_eq_in_place s v c rest h0 hc]
      have hcl : c.length = CHUNK_SIZE := hlen c (hc ▸ List.mem_cons_self c rest)
      have hlt : s.pos - 1 < c.length := by omega
      unfold SimpleRevFIFO.toList
      simp only [hc]
      rw [List.drop_set_eq_cons _ _ _ hlt]
      have hsp : s.pos - 1 + 1 = s.pos := by omega
      rw [hsp]
      simp

theorem SimpleRevFIFO.lastValue_push {T : Type} [Inhabited T]
    (s : SimpleRevFIFO T) (v : T) (h : s.Inv) : (s.push v).lastValue = v := by
  obtain ⟨hlen, hnil, hpos⟩ := h
  by_cases h0 : s.pos = 0
  · rw [SimpleRevFIFO.push_eq_alloc s v h0]
    unfold SimpleRevFIFO.lastValue
    simp [CHUNK_SIZE]
  · cases hc : s.chunks with
    | nil => exact absurd (hnil (by rw [hc]; rfl)) h0
    | cons c rest =>
      rw [SimpleRevFIFO.push_eq_in_place s v c rest h0 hc]
      have hcl : c.length = CHUNK_SIZE := hlen c (hc ▸ List.mem_cons_self c rest)
      unfold SimpleRevFIFO.lastValue
      simp only []
      rw [List.getD_eq_getElem?_getD,
          List.getElem?_set_self (by omega : s.pos - 1 < c.length)]
      rfl

theorem SimpleRevFIFO.chunks_push_length {T : Type} [Inhabited T]
    (s : SimpleRevFIFO T) (v : T) (h : s.Inv) :
    (s.push v).chunks.length = s.chunks.length + 1 ↔ s.pos = 0 := by
  obtain ⟨hlen, hnil, hpos⟩ := h
  by_cases h0 : s.pos = 0
  · rw [SimpleRevFIFO.push_eq_alloc s v h0]
    simpa using h0
  · cases hc : s.chunks with
    | nil => exact absurd (hnil (by rw [hc]; rfl)) h0
    | cons c rest =>
      rw [SimpleRevFIFO.push_eq_in_place s v c rest h0 hc]
      simp [hc, h0]

theorem SimpleRevFIFO.chunks_push_ne_nil {T : Type} [Inhabited T]
    (s : SimpleRevFIFO T) (v : T) (h : s.Inv) : (s.push v).chunks ≠ [] := by
  obtain ⟨hlen, hnil, hpos⟩ := h
  by_cases h0 : s.pos = 0
  · rw [SimpleRevFIFO.push_eq_alloc s v h0]; simp
  · cases hc : s.chunks with
    | nil => exact absurd (hnil (by rw [hc]; rfl)) h0
    | cons c rest =>
      rw [SimpleRevFIFO.push_eq_in_place s v c rest h0 hc]; simp

theorem SimpleRevFIFO.toList_pushAll {T : Type} [Inhabited T]
    (s : SimpleRevFIFO T) (vs : List T) (h : s.Inv) :
    (s.pushAll vs).toList = vs.reverse ++ s.toList ∧ (s.pushAll vs).Inv := by
  induction vs generalizing s with
  | nil => exact ⟨by simp [SimpleRevFIFO.pushAll], h⟩
  | cons v rest ih =>
    have h1 := SimpleRevFIFO.inv_push s v h
    have h2 := ih (s.push v) h1
    refine ⟨?_, h2.2⟩
    have heq : SimpleRevFIFO.pushAll s (v :: rest) = SimpleRevFIFO.pushAll (s.push v) rest := rfl
    rw [heq, h2.1, SimpleRevFIFO.toList_push s v h]
    simp

theorem SimpleRevFIFO.pushIfNotTop_fix {T : Type} [Inhabited T] [DecidableEq T]
    (s : SimpleRevFIFO T) (v : T) (hne : s.chunks ≠ []) (hv : s.lastValue = v) :
    s.pushIfNotTop v = s := by
  obtain ⟨c, rest, hc⟩ := List.exists_cons_of_ne_nil hne
  simp [SimpleRevFIFO.pushIfNotTop, hc, hv]

/-- C2: pushing values v0, ..., vn with `SimpleRevFIFO::Push` and iterating
with `SimpleRevFIFO::Iterator` yields vn, ..., v0 (newest first); pushing
0..33 with CHUNK_SIZE = 16 yields 33, 32, ..., 0; and `Push` allocates and
links a fresh chunk at the head exactly when `pos_ == 0`, i.e. when the
current head chunk is full (or no chunk exists yet). -/
theorem claim_C2_simpleRevFIFO_iteration {T : Type} [Inhabited T] (vs : List T)
    (s : SimpleRevFIFO T) (v : T) (h : s.Inv) :
    ((SimpleRevFIFO.initial T).pushAll vs).toList = vs.reverse ∧
    ((SimpleRevFIFO.initial Nat).pushAll (List.range 34)).toList = (List.range 34).reverse ∧
    ((s.push v).chunks.length = s.chunks.length + 1 ↔ s.pos = 0) := by
  refine ⟨?_, ?_, SimpleRevFIFO.chunks_push_length s v h⟩
  · have h1 := SimpleRevFIFO.toList_pushAll (SimpleRevFIFO.initial T) vs
      (SimpleRevFIFO.inv_initial T)
    simpa [SimpleRevFIFO.toList, SimpleRevFIFO.initial] using h1.1
  · have h1 := SimpleRevFIFO.toList_pushAll (SimpleRevFIFO.initial Nat) (List.range 34)
      (SimpleRevFIFO.inv_initial Nat)
    simpa [SimpleRevFIFO.toList, SimpleRevFIFO.initial] using h1.1

theorem claim_C2_witness :
    ((SimpleRevFIFO.initial Nat).pushAll [0, 1, 2]).toList = [2, 1, 0] ∧
    ((SimpleRevFIFO.initial Nat).pushAll (List.range 34)).toList = (List.range 34).reverse ∧
    (((SimpleRevFIFO.initial Nat).push 5).chunks.length
        = (SimpleRevFIFO.initial Nat).chunks.length + 1 ↔
      (SimpleRevFIFO.initial Nat).pos = 0) := by
  have h := claim_C2_simpleRevFIFO_iteration [0, 1, 2] (SimpleRevFIFO.initial Nat) 5
    (by decide)
  simpa using h

/-- C6: `PushIfNotTop(solver, v)` is a no-op when the FIFO is non-empty and
its most recently pushed value equals v, and otherwise pushes v; calling it
twice in a row with the same value leaves the same contents as calling it
once, while a duplicate of an element that is not the current top is still
pushed. -/
theorem claim_C6_pushIfNotTop_idempotent {T : Type} [Inhabited T] [DecidableEq T]
    (s : SimpleRevFIFO T) (v : T) (h : s.Inv) :
    ((s.pushIfNotTop v).pushIfNotTop v = s.pushIfNotTop v) ∧
    (s.chunks ≠ [] → s.lastValue = v → s.pushIfNotTop v = s) ∧
    ((s.chunks = [] ∨ s.lastValue ≠ v) → (s.pushIfNotTop v).toList = v :: s.toList) := by
  have hfix : ∀ s' : SimpleRevFIFO T, s'.Inv → s'.chunks ≠ [] → s'.lastValue = v →
      s'.pushIfNotTop v = s' := fun s' _ => SimpleRevFIFO.pushIfNotTop_fix s' v
  refine ⟨?_, fun hne hv => SimpleRevFIFO.pushIfNotTop_fix s v hne hv, ?_⟩
  · cases hc : s.chunks with
    | nil =>
      have hp : s.pushIfNotTop v = s.push v := by
        simp [SimpleRevFIFO.pushIfNotTop, hc]
      rw [hp]
      exact hfix (s.push v) (SimpleRevFIFO.inv_push s v h)
        (SimpleRevFIFO.chunks_push_ne_nil s v h) (SimpleRevFIFO.lastValue_push s v h)
    | cons c rest =>
      by_cases hv : s.lastValue = v
      · have hp : s.pushIfNotTop v = s := SimpleRevFIFO.pushIfNotTop_fix s v (by simp [hc]) hv
        rw [hp, hp]
      · have hp : s.pushIfNotTop v = s.push v := by
          simp [SimpleRevFIFO.pushIfNotTop, hc, hv]
        rw [hp]
        exact hfix (s.push v) (SimpleRevFIFO.inv_push s v h)
          (SimpleRevFIFO.chunks_push_ne_nil s v h) (SimpleRevFIFO.lastValue_push s v h)
  · intro hcase
    have hp : s.pushIfNotTop v = s.push v := by
      rcases hcase with hc | hv
      · simp [SimpleRevFIFO.pushIfNotTop, hc]
      · cases hc : s.chunks with
        | nil => simp [SimpleRevFIFO.pushIfNotTop, hc]
        | cons c rest => simp [SimpleRevFIFO.pushIfNotTop, hc, hv]
    rw [hp]
    exact SimpleRevFIFO.toList_push s v h

theorem claim_C6_witness :
    (((SimpleRevFIFO.initial Nat).pushIfNotTop 9).pushIfNotTop 9
        = (SimpleRevFIFO.initial Nat).pushIfNotTop 9) ∧
    ((SimpleRevFIFO.initial Nat).pushIfNotTop 9).toList = [9] := by
  have h := claim_C6_pushIfNotTop_idempotent (SimpleRevFIFO.initial Nat) 9 (by decide)
  exact ⟨h.1, by simpa using h.2.2 (Or.inl rfl)⟩

/- ===================== RevSwitch =====================
`RevSwitch` (constraint_solveri.h, lines 404-416) is a one-way reversible
flag: `value_` starts out `false`; `Switch` calls
`solver->SaveAndSetValue(&value_, true)`, which records the previous value
on the trail and overwrites with `true`; `Switched` reads `value_`.
`Solver::SaveAndSetValue` itself lives in constraint_solver.h, which is not
under src/.  Modelled from the spec: a trail entry stores the previous
value, and undoing to a mark pops entries, restoring each saved value, until
the trail shrinks back to the mark (spec sections 3 and 4.1).  The embedding
carries the trail of saved booleans inside the state. -/

structure RevSwitch where
  value : Bool
  trail : List Bool

def RevSwitch.initial : RevSwitch := ⟨false, []⟩

/-- Embedding of `RevSwitch::Switched` (line 408). -/
def RevSwitch.Switched (s : RevSwitch) : Bool := s.value

/-- Embedding of `RevSwitch::Switch` (lines 410-412): save the old value on
the trail, then set `value_` to `true`. -/
def RevSwitch.doSwitch (s : RevSwitch) : RevSwitch := ⟨true, s.value :: s.trail⟩

/-- Modelled from the spec: `Trail::UndoTo(mark)` pops entries and restores
the saved values until the trail is back at the mark (a trail depth). -/
def RevSwitch.undoAux (m : Nat) : Bool → List Bool → RevSwitch
  | v, [] => ⟨v, []⟩
  | v, old :: rest =>
    if rest.length + 1 ≤ m then ⟨v, old :: rest⟩ else RevSwitch.undoAux m old rest

def RevSwitch.undoTo (m : Nat) (s : RevSwitch) : RevSwitch :=
  RevSwitch.undoAux m s.value s.trail

def RevSwitch.iterSwitch : Nat → RevSwitch → RevSwitch
  | 0, s => s
  | k + 1, s => RevSwitch.iterSwitch k s.doSwitch

theorem RevSwitch.undoTo_of_le (s : RevSwitch) (m : Nat) (h : s.trail.length ≤ m) :
    s.undoTo m = s := by
  obtain ⟨v, trail⟩ := s
  cases trail with
  | nil => rfl
  | cons old rest =>
    simp only [RevSwitch.undoTo, RevSwitch.undoAux]
    rw [if_pos (by simpa using h)]

theorem RevSwitch.undoAux_append (m : Nat) (v : Bool) (pre post : List Bool)
    (hpost : post.length = m) :
    RevSwitch.undoAux m v (pre ++ post) = ⟨pre.getLastD v, post⟩ := by
  induction pre generalizing v with
  | nil =>
    cases post with
    | nil => rfl
    | cons old rest =>
      simp only [List.nil_append, RevSwitch.undoAux]
      rw [if_pos (by simp at hpost; omega)]
      rfl
  | cons a pre' ih =>
    simp only [List.cons_append, RevSwitch.undoAux]
    rw [if_neg (by simp; omega)]
    simp only [List.append_eq]
    rw [ih a, List.getLastD_cons]

theorem RevSwitch.iterSwitch_succ_eq (k : Nat) (s : RevSwitch) :
    RevSwitch.iterSwitch (k + 1) s
      = ⟨true, List.replicate k true ++ s.value :: s.trail⟩ := by
  induction k generalizing s with
  | zero => rfl
  | succ k ih =>
    have h1 : RevSwitch.iterSwitch (k + 2) s = RevSwitch.iterSwitch (k + 1) s.doSwitch := rfl
    rw [h1, ih s.doSwitch]
    simp only [RevSwitch.doSwitch]
    congr 1
    rw [show List.replicate (k + 1) true = List.replicate k true ++ [true] by
      simp [List.replicate_succ'], List.append_assoc]
    rfl

theorem List.getLastD_replicate_true (j : Nat) :
    (List.replicate j true).getLastD true = true := by
  cases j with
  | zero => rfl
  | succ j => simp [List.replicate_succ']

/-- C7: a new `RevSwitch` has `Switched() == false`; after `Switch` it is
`true` and stays `true` under any further `Switch` calls; undoing the trail
to a mark taken before the first `Switch` restores the whole prior state
(hence `false` for a fresh switch), while undoing to any mark taken at or
after the first `Switch` leaves `Switched()` at `true`. -/
theorem claim_C7_revSwitch_one_way (s : RevSwitch) (k m : Nat) :
    RevSwitch.initial.Switched = false ∧
    s.doSwitch.Switched = true ∧
    (RevSwitch.iterSwitch (k + 1) s).Switched = true ∧
    RevSwitch.undoTo s.trail.length (RevSwitch.iterSwitch (k + 1) s) = s ∧
    (s.trail.length + 1 ≤ m → m ≤ (RevSwitch.iterSwitch (k + 1) s).trail.length →
      (RevSwitch.undoTo m (RevSwitch.iterSwitch (k + 1) s)).Switched = true) := by
  have hiter := RevSwitch.iterSwitch_succ_eq k s
  refine ⟨rfl, rfl, ?_, ?_, ?_⟩
  · rw [hiter]; rfl
  · rw [hiter]
    have hdecomp : List.replicate k true ++ s.value :: s.trail
        = (List.replicate k true ++ [s.value]) ++ s.trail := by
      simp
    simp only [RevSwitch.undoTo, hdecomp]
    rw [RevSwitch.undoAux_append s.trail.length true _ s.trail rfl]
    rw [List.getLastD_concat]
  · intro hm1 hm2
    rw [hiter] at hm2 ⊢
    simp only [List.length_append, List.length_replicate, List.length_cons] at hm2
    set len := s.trail.length with hlen
    have hj : m - (len + 1) ≤ k := by omega
    set j := k + len + 1 - m with hjdef
    have hjk : j ≤ k := by omega
    have hdecomp : List.replicate k true ++ s.value :: s.trail
        = List.replicate j true ++ (List.replicate (k - j) true ++ s.value :: s.trail) := by
      rw [← List.append_assoc, ← List.replicate_add]
      congr 2
      omega
    simp only [RevSwitch.undoTo, hdecomp]
    rw [RevSwitch.undoAux_append m true _ _ (by simp; omega)]
    simp only [RevSwitch.Switched]
    exact List.getLastD_replicate_true j

theorem claim_C7_witness :
    RevSwitch.initial.Switched = false ∧
    RevSwitch.undoTo 0 (RevSwitch.iterSwitch 1 RevSwitch.initial) = RevSwitch.initial ∧
    (RevSwitch.undoTo 1 (RevSwitch.iterSwitch 1 RevSwitch.initial)).Switched = true := by
  have h := claim_C7_revSwitch_one_way RevSwitch.initial 0 1
  exact ⟨h.1, by simpa using h.2.2.2.1, h.2.2.2.2 (by decide) (by decide)⟩

/- ===================== PathOperator inline accessors =====================
`PathOperator` (constraint_solveri.h, lines 993-1101) keeps its `next`
variables at indices 0 .. number_of_nexts_-1 of the tracked-variable array
and, when path variables are tracked, the path ids at indices
number_of_nexts_ .. 2*number_of_nexts_-1.  The accessors under test are
fully inline in the header:
  Path(i)      = ignore_path_vars_ ? 0 : Value(i + number_of_nexts_)
  IsPathEnd(i) = i >= number_of_nexts_
  IsInactive(i) = !IsPathEnd(i) && inactives_[i].
Indices are int64, embedded as Int. -/

structure PathOperatorState where
  numberOfNexts : Nat
  ignorePathVars : Bool
  values : Int → Int
  inactives : Int → Bool

/-- Embedding of `PathOperator::IsPathEnd` (line 1059). -/
def PathOperatorState.IsPathEnd (s : PathOperatorState) (i : Int) : Bool :=
  decide ((s.numberOfNexts : Int) ≤ i)

/-- Embedding of `PathOperator::Path` (lines 1015-1017). -/
def PathOperatorState.Path (s : PathOperatorState) (i : Int) : Int :=
  if s.ignorePathVars then 0 else s.values (i + (s.numberOfNexts : Int))

/-- Embedding of `PathOperator::IsInactive` (line 1062). -/
def PathOperatorState.IsInactive (s : PathOperatorState) (i : Int) : Bool :=
  !s.IsPathEnd i && s.inactives i

/-- C8: for a `PathOperator` with n next variables, `IsPathEnd(i)` is true
iff `i >= n`; when path variables are not tracked, `Path(i)` returns 0 for
every index; and `IsInactive(i)` is false for every path-end index. -/
theorem claim_C8_pathOperator_accessors (s : PathOperatorState) (i : Int) :
    (s.IsPathEnd i = true ↔ (s.numberOfNexts : Int) ≤ i) ∧
    (s.ignorePathVars = true → s.Path i = 0) ∧
    ((s.numberOfNexts : Int) ≤ i → s.IsInactive i = false) := by
  refine ⟨by simp [PathOperatorState.IsPathEnd], ?_, ?_⟩
  · intro h
    simp [PathOperatorState.Path, h]
  · intro h
    simp [PathOperatorState.IsInactive, PathOperatorState.IsPathEnd, h]

theorem claim_C8_witness :
    ((PathOperatorState.mk 3 true (fun _ => 7) (fun _ => true)).IsPathEnd 5 = true ↔
      ((3 : Nat) : Int) ≤ 5) ∧
    (PathOperatorState.mk 3 true (fun _ => 7) (fun _ => true)).Path 1 = 0 ∧
    (PathOperatorState.mk 3 true (fun _ => 7) (fun _ => true)).IsInactive 5 = false := by
  have h := claim_C8_pathOperator_accessors (PathOperatorState.mk 3 true (fun _ => 7) (fun _ => true)) 5
  have h1 := claim_C8_pathOperator_accessors (PathOperatorState.mk 3 true (fun _ => 7) (fun _ => true)) 1
  exact ⟨h.1, h1.2.1 rfl, h.2.2 (by decide)⟩

/- ===================== Demon wrappers =====================
`CallMethod0/1/2` and `MakeConstraintDemon0/1/2` (constraint_solveri.h,
lines 521-637) wrap a bound constraint method as a demon with the
base-class priority; `DelayedCallMethod0/1/2` and
`MakeDelayedConstraintDemon0/1/2` (lines 645-773) additionally override
`priority()` to return `Solver::DELAYED_PRIORITY`.  The `Demon` base class
and the `Solver::DemonPriority` enum live in constraint_solver.h, which is
not under src/.  Modelled from the spec and the header comment (line 518:
"demons are just proxies with a priority of NORMAL_PRIORITY"): the base
class priority is `NORMAL_PRIORITY`.  A method that mutates its constraint
is embedded as a function from the constraint state (plus captured
arguments) to the new constraint state; all demon fields are const in the
source, so a demon is an immutable value and its priority depends on
nothing but the wrapper class. -/

inductive DemonPriority where
  | DELAYED_PRIORITY
  | VAR_PRIORITY
  | NORMAL_PRIORITY
deriving DecidableEq

/-- Modelled from the spec: `Demon::priority()` of the base class returns
`Solver::NORMAL_PRIORITY` (header comment, line 518). -/
def Demon.basePriority : DemonPriority := DemonPriority.NORMAL_PRIORITY

structure CallMethod0 (T : Type) where
  constraint : T
  method : T → T
  name : String

/-- Embedding of `CallMethod0::Run` (lines 528-530). -/
def CallMethod0.Run {T : Type} (d : CallMethod0 T) : T := d.method d.constraint

/-- `CallMethod0` does not override `priority()`: it inherits the base. -/
def CallMethod0.priority {T : Type} (_ : CallMethod0 T) : DemonPriority :=
  Demon.basePriority

structure CallMethod1 (T P : Type) where
  constraint : T
  method : T → P → T
  name : String
  param1 : P

/-- Embedding of `CallMethod1::Run` (lines 563-565). -/
def CallMethod1.Run {T P : Type} (d : CallMethod1 T P) : T :=
  d.method d.constraint d.param1

def CallMethod1.priority {T P : Type} (_ : CallMethod1 T P) : DemonPriority :=
  Demon.basePriority

structure CallMethod2 (T P Q : Type) where
  constraint : T
  method : T → P → Q → T
  name : String
  param1 : P
  param2 : Q

/-- Embedding of `CallMethod2::Run` (lines 605-607). -/
def CallMethod2.Run {T P Q : Type} (d : CallMethod2 T P Q) : T :=
  d.method d.constraint d.param1 d.param2

def CallMethod2.priority {T P Q : Type} (_ : CallMethod2 T P Q) : DemonPriority :=
  Demon.basePriority

structure DelayedCallMethod0 (T : Type) where
  constraint : T
  method : T → T
  name : String

/-- Embedding of `DelayedCallMethod0::Run` (lines 652-654). -/
def DelayedCallMethod0.Run {T : Type} (d : DelayedCallMethod0 T) : T :=
  d.method d.constraint

/-- Embedding of `DelayedCallMethod0::priority` (lines 656-658). -/
def DelayedCallMethod0.priority {T : Type} (_ : DelayedCallMethod0 T) : DemonPriority :=
  DemonPriority.DELAYED_PRIORITY

structure DelayedCallMethod1 (T P : Type) where
  constraint : T
  method : T → P → T
  name : String
  param1 : P

/-- Embedding of `DelayedCallMethod1::Run` (lines 692-694). -/
def DelayedCallMethod1.Run {T P : Type} (d : DelayedCallMethod1 T P) : T :=
  d.method d.constraint d.param1

/-- Embedding of `DelayedCallMethod1::priority` (lines 696-698). -/
def DelayedCallMethod1.priority {T P : Type} (_ : DelayedCallMethod1 T P) : DemonPriority :=
  DemonPriority.DELAYED_PRIORITY

structure DelayedCallMethod2 (T P Q : Type) where
  constraint : T
  method : T → P → Q → T
  name : String
  param1 : P
  param2 : Q

/-- Embedding of `DelayedCallMethod2::Run` (lines 738-740). -/
def DelayedCallMethod2.Run {T P Q : Type} (d : DelayedCallMethod2 T P Q) : T :=
  d.method d.constraint d.param1 d.param2

/-- Embedding of `DelayedCallMethod2::priority` (lines 742-744). -/
def DelayedCallMethod2.priority {T P Q : Type} (_ : DelayedCallMethod2 T P Q) : DemonPriority :=
  DemonPriority.DELAYED_PRIORITY

/-- Embedding of `MakeConstraintDemon0` (lines 542-547). -/
def MakeConstraintDemon0 {T : Type} (ct : T) (method : T → T) (name : String) :
    CallMethod0 T := ⟨ct, method, name⟩

/-- Embedding of `MakeConstraintDemon1` (lines 580-587). -/
def MakeConstraintDemon1 {T P : Type} (ct : T) (method : T → P → T) (name : String)
    (param1 : P) : CallMethod1 T P := ⟨ct, method, name, param1⟩

/-- Embedding of `MakeConstraintDemon2` (lines 624-636). -/
def MakeConstraintDemon2 {T P Q : Type} (ct : T) (method : T → P → Q → T)
    (name : String) (param1 : P) (param2 : Q) : CallMethod2 T P Q :=
  ⟨ct, method, name, param1, param2⟩

/-- Embedding of `MakeDelayedConstraintDemon0` (lines 671-676). -/
def MakeDelayedConstraintDemon0 {T : Type} (ct : T) (method : T → T)
    (name : String) : DelayedCallMethod0 T := ⟨ct, method, name⟩

/-- Embedding of `MakeDelayedConstraintDemon1` (lines 713-720). -/
def MakeDelayedConstraintDemon1 {T P : Type} (ct : T) (method : T → P → T)
    (name : String) (param1 : P) : DelayedCallMethod1 T P :=
  ⟨ct, method, name, param1⟩

/-- Embedding of `MakeDelayedConstraintDemon2` (lines 761-773). -/
def MakeDelayedConstraintDemon2 {T P Q : Type} (ct : T) (method : T → P → Q → T)
    (name : String) (param1 : P) (param2 : Q) : DelayedCallMethod2 T P Q :=
  ⟨ct, method, name, param1, param2⟩

/-- C5: the demons returned by `MakeDelayedConstraintDemon0/1/2` report
`priority() == Solver::DELAYED_PRIORITY`; the demons returned by
`MakeConstraintDemon0/1/2` keep the base-class `NORMAL_PRIORITY`; the
priority of any such demon is a fixed function of the wrapper class alone
(every demon field is const in the source, so it cannot change over the
demon's lifetime); and `Run` invokes exactly the bound method on the bound
constraint with the captured argument values. -/
theorem claim_C5_demon_priorities {T P Q : Type} (ct : T) (m0 : T → T)
    (m1 : T → P → T) (m2 : T → P → Q → T) (nm : String) (p : P) (q : Q)
    (d0 : CallMethod0 T) (d1 : CallMethod1 T P) (d2 : CallMethod2 T P Q)
    (e0 : DelayedCallMethod0 T) (e1 : DelayedCallMethod1 T P)
    (e2 : DelayedCallMethod2 T P Q) :
    (MakeDelayedConstraintDemon0 ct m0 nm).priority = DemonPriority.DELAYED_PRIORITY ∧
    (MakeDelayedConstraintDemon1 ct m1 nm p).priority = DemonPriority.DELAYED_PRIORITY ∧
    (MakeDelayedConstraintDemon2 ct m2 nm p q).priority = DemonPriority.DELAYED_PRIORITY ∧
    (MakeConstraintDemon0 ct m0 nm).priority = Demon.basePriority ∧
    (MakeConstraintDemon1 ct m1 nm p).priority = Demon.basePriority ∧
    (MakeConstraintDemon2 ct m2 nm p q).priority = Demon.basePriority ∧
    Demon.basePriority = DemonPriority.NORMAL_PRIORITY ∧
    d0.priority = DemonPriority.NORMAL_PRIORITY ∧
    d1.priority = DemonPriority.NORMAL_PRIORITY ∧
    d2.priority = DemonPriority.NORMAL_PRIORITY ∧
    e0.priority = DemonPriority.DELAYED_PRIORITY ∧
    e1.priority = DemonPriority.DELAYED_PRIORITY ∧
    e2.priority = DemonPriority.DELAYED_PRIORITY ∧
    (MakeConstraintDemon0 ct m0 nm).Run = m0 ct ∧
    (MakeConstraintDemon1 ct m1 nm p).Run = m1 ct p ∧
    (MakeConstraintDemon2 ct m2 nm p q).Run = m2 ct p q ∧
    (MakeDelayedConstraintDemon0 ct m0 nm).Run = m0 ct ∧
    (MakeDelayedConstraintDemon1 ct m1 nm p).Run = m1 ct p ∧
    (MakeDelayedConstraintDemon2 ct m2 nm p q).Run = m2 ct p q :=
  ⟨rfl, rfl, rfl, rfl, rfl, rfl, rfl, rfl, rfl, rfl, rfl, rfl, rfl, rfl, rfl,
   rfl, rfl, rfl, rfl⟩

/- ===================== SmallRevBitSet =====================
`SmallRevBitSet` (constraint_solveri.h, lines 420-441) keeps its state in a
single reversible `uint64` cell `bits_`.  `IsCardinalityZero` and
`IsCardinalityOne` are fully inline in the header:
  IsCardinalityZero() = (bits_.Value() == 0)
  IsCardinalityOne()  = (bits_.Value() != 0) && !(bits_.Value() & (bits_.Value() - 1)).
The 64-bit word is embedded as a Nat below 2^64; for `bits_ != 0` the
subtraction `bits_ - 1` does not wrap, and for `bits_ == 0` the `&&`
short-circuits in C++ while the Lean `&&` evaluates a `0 &&& (0 - 1)` that
truncated Nat subtraction also sends to 0, so the embedded boolean agrees
with the C++ one on every word. -/

structure SmallRevBitSet where
  bits : Nat

/-- Embedding of `SmallRevBitSet::IsCardinalityZero` (line 430). -/
def SmallRevBitSet.IsCardinalityZero (s : SmallRevBitSet) : Bool := s.bits == 0

/-- Embedding of `SmallRevBitSet::IsCardinalityOne` (lines 432-434). -/
def SmallRevBitSet.IsCardinalityOne (s : SmallRevBitSet) : Bool :=
  (s.bits != 0) && ((s.bits &&& (s.bits - 1)) == 0)

/-- Number of set bits, by structural recursion on a fuel bound (any fuel at
least the argument gives the true popcount). -/
def popcountAux : Nat → Nat → Nat
  | 0, _ => 0
  | fuel + 1, n => if n = 0 then 0 else n % 2 + popcountAux fuel (n / 2)

def popcount (n : Nat) : Nat := popcountAux n n

theorem popcountAux_congr (n : Nat) : ∀ fuelA fuelB, n ≤ fuelA → n ≤ fuelB →
    popcountAux fuelA n = popcountAux fuelB n := by
  induction n using Nat.strong_induction_on with
  | _ n ih =>
    intro fuelA fuelB hA hB
    by_cases hn : n = 0
    · subst hn
      cases fuelA <;> cases fuelB <;> rfl
    · obtain ⟨a, rfl⟩ : ∃ a, fuelA = a + 1 := ⟨fuelA - 1, by omega⟩
      obtain ⟨b, rfl⟩ : ∃ b, fuelB = b + 1 := ⟨fuelB - 1, by omega⟩
      show (if n = 0 then 0 else n % 2 + popcountAux a (n / 2))
          = (if n = 0 then 0 else n % 2 + popcountAux b (n / 2))
      rw [if_neg hn, if_neg hn]
      have hdiv : n / 2 < n := Nat.div_lt_self (Nat.pos_of_ne_zero hn) Nat.one_lt_two
      rw [ih (n / 2) hdiv a b (by omega) (by omega)]

theorem popcount_rec (n : Nat) (h : n ≠ 0) :
    popcount n = n % 2 + popcount (n / 2) := by
  obtain ⟨m, rfl⟩ : ∃ m, n = m + 1 := ⟨n - 1, by omega⟩
  show (if m + 1 = 0 then 0 else (m + 1) % 2 + popcountAux m ((m + 1) / 2))
      = (m + 1) % 2 + popcount ((m + 1) / 2)
  rw [if_neg h, popcountAux_congr ((m + 1) / 2) m ((m + 1) / 2) (by omega) (by omega)]
  rfl

theorem popcount_two_mul (m : Nat) : popcount (2 * m) = popcount m := by
  by_cases hm : m = 0
  · subst hm; rfl
  · rw [popcount_rec (2 * m) (by omega)]
    simp [Nat.mul_div_cancel_left m (by omega : 0 < 2), Nat.mul_mod_right]

theorem popcount_two_mul_add_one (m : Nat) : popcount (2 * m + 1) = popcount m + 1 := by
  rw [popcount_rec (2 * m + 1) (by omega)]
  have h1 : (2 * m + 1) % 2 = 1 := by omega
  have h2 : (2 * m + 1) / 2 = m := by omega
  rw [h1, h2, Nat.add_comm]

theorem popcount_eq_zero_iff (n : Nat) : popcount n = 0 ↔ n = 0 := by
  induction n using Nat.strong_induction_on with
  | _ n ih =>
    by_cases hn : n = 0
    · subst hn; simp [popcount, popcountAux]
    · rw [popcount_rec n hn]
      have hdiv : n / 2 < n := Nat.div_lt_self (Nat.pos_of_ne_zero hn) Nat.one_lt_two
      constructor
      · intro h
        have h1 : popcount (n / 2) = 0 := by omega
        have h2 : n / 2 = 0 := (ih (n / 2) hdiv).mp h1
        have h3 : n % 2 = 0 := by omega
        omega
      · intro h; exact absurd h hn

theorem popcount_two_pow (k : Nat) : popcount (2 ^ k) = 1 := by
  induction k with
  | zero => rfl
  | succ k ih => rw [Nat.pow_succ, Nat.mul_comm, popcount_two_mul]; exact ih

theorem exists_two_pow_of_popcount_one (n : Nat) (h : popcount n = 1) :
    ∃ k, n = 2 ^ k := by
  induction n using Nat.strong_induction_on with
  | _ n ih =>
    by_cases hn : n = 0
    · subst hn; simp [popcount, popcountAux] at h
    · have hdiv : n / 2 < n := Nat.div_lt_self (Nat.pos_of_ne_zero hn) Nat.one_lt_two
      rcases Nat.mod_two_eq_zero_or_one n with hpar | hpar
      · have hrep : n = 2 * (n / 2) := by omega
        have hm : n / 2 ≠ 0 := by omega
        have hpc : popcount (n / 2) = 1 := by
          rw [hrep, popcount_two_mul] at h; exact h
        obtain ⟨j, hj⟩ := ih (n / 2) hdiv hpc
        exact ⟨j + 1, by rw [hrep, hj, Nat.pow_succ, Nat.mul_comm]⟩
      · have hrep : n = 2 * (n / 2) + 1 := by omega
        have hpc : popcount (n / 2) = 0 := by
          rw [hrep, popcount_two_mul_add_one] at h; omega
        have hz : n / 2 = 0 := (popcount_eq_zero_iff (n / 2)).mp hpc
        exact ⟨0, by omega⟩

theorem land_pred_eq_zero_iff (n : Nat) (h : n ≠ 0) :
    (n &&& (n - 1)) = 0 ↔ ∃ k, n = 2 ^ k := by
  constructor
  · intro h0
    have hbit : ∀ i, (n &&& (n - 1)).testBit i = false := by
      intro i; rw [h0]; exact Nat.zero_testBit i
    induction n using Nat.strong_induction_on with
    | _ n ih =>
      have hdiv : n / 2 < n := Nat.div_lt_self (Nat.pos_of_ne_zero h) Nat.one_lt_two
      rcases Nat.mod_two_eq_zero_or_one n with hpar | hpar
      · -- even case: n = 2m with m ≠ 0 and (m &&& (m-1)) = 0
        have hrep : n = 2 * (n / 2) := by omega
        set m := n / 2 with hm
        have hm0 : m ≠ 0 := by omega
        have hpred : n - 1 = 2 * (m - 1) + 1 := by omega
        have hland : (m &&& (m - 1)) = 0 := by
          apply Nat.eq_of_testBit_eq
          intro i
          rw [Nat.zero_testBit, Nat.testBit_and]
          have hb := hbit (i + 1)
          rw [Nat.testBit_and, Nat.testBit_succ, Nat.testBit_succ] at hb
          have e1 : n / 2 = m := rfl
          have e2 : (n - 1) / 2 = m - 1 := by omega
          rw [e1, e2] at hb
          exact hb
        have hb0 : ∀ i, ((m &&& (m - 1))).testBit i = false := by
          intro i; rw [hland]; exact Nat.zero_testBit i
        obtain ⟨j, hj⟩ := ih m hdiv hm0 hland hb0
        exact ⟨j + 1, by rw [hrep, hj, Nat.pow_succ, Nat.mul_comm]⟩
      · -- odd case: all bits above bit 0 vanish, so n = 1
        have hrep : n = 2 * (n / 2) + 1 := by omega
        set m := n / 2 with hm
        have hmz : m = 0 := by
          have : ∀ i, m.testBit i = false := by
            intro i
            have hb := hbit (i + 1)
            rw [Nat.testBit_and, Nat.testBit_succ, Nat.testBit_succ] at hb
            have e1 : n / 2 = m := rfl
            have e2 : (n - 1) / 2 = m := by omega
            rw [e1, e2, Bool.and_self] at hb
            exact hb
          apply Nat.eq_of_testBit_eq
          intro i
          rw [this i, Nat.zero_testBit]
        exact ⟨0, by omega⟩
  · rintro ⟨k, rfl⟩
    apply Nat.eq_of_testBit_eq
    intro i
    rw [Nat.zero_testBit, Nat.testBit_and, Nat.testBit_two_pow,
        Nat.testBit_two_pow_sub_one]
    simp only [Bool.and_eq_false_iff, decide_eq_false_iff_not]
    omega

/-- C10: for a 64-bit `SmallRevBitSet` state b, `IsCardinalityZero()` is
true iff b == 0, and `IsCardinalityOne()` -- the bit test
`(b != 0) && !(b & (b - 1))` -- is true iff exactly one bit of b is set,
i.e. iff popcount(b) == 1. -/
theorem claim_C10_smallRevBitSet_cardinality (s : SmallRevBitSet)
    (_h : s.bits < 2 ^ 64) :
    (s.IsCardinalityZero = true ↔ s.bits = 0) ∧
    (s.IsCardinalityOne = true ↔ popcount s.bits = 1) := by
  constructor
  · simp [SmallRevBitSet.IsCardinalityZero]
  · simp only [SmallRevBitSet.IsCardinalityOne, Bool.and_eq_true, bne_iff_ne,
      ne_eq, beq_iff_eq]
    constructor
    · rintro ⟨hne, hland⟩
      obtain ⟨k, hk⟩ := (land_pred_eq_zero_iff s.bits hne).mp hland
      rw [hk]
      exact popcount_two_pow k
    · intro hpc
      have hne : s.bits ≠ 0 := by
        intro h0
        rw [h0] at hpc
        simp [popcount, popcountAux] at hpc
      exact ⟨hne, (land_pred_eq_zero_iff s.bits hne).mpr
        (exists_two_pow_of_popcount_one s.bits hpc)⟩

theorem claim_C10_witness :
    ((SmallRevBitSet.mk 8).IsCardinalityZero = true ↔ (SmallRevBitSet.mk 8).bits = 0) ∧
    ((SmallRevBitSet.mk 8).IsCardinalityOne = true ↔ popcount (SmallRevBitSet.mk 8).bits = 1) :=
  claim_C10_smallRevBitSet_cardinality (SmallRevBitSet.mk 8) (by decide)

/- ===================== RevBitSet / RevBitMatrix =====================
`RevBitSet` (constraint_solveri.h, lines 445-477) declares a reversible
bitset; `RevBitMatrix` (lines 480-512) privately inherits from it and is
the matrix view.  `RevBitMatrix::IsSet` is fully inline in the header
(lines 490-496): it forwards to `RevBitSet::IsSet(row * columns_ + column)`
after bound DCHECKs.  The bodies of `RevBitSet::IsSet/SetToOne/SetToZero`
and of `RevBitMatrix::SetToOne/SetToZero` are in constraint_solver.cc,
which is not under src/.  Modelled from the spec: the bitset is an array of
64-bit words (bit `pos` lives in word `pos / 64` at bit `pos % 64`), and
`RevBitMatrix` maps `(row, col)` to the flat index `row * columns + col`
for its mutators exactly as the inline `IsSet` does.  The per-word stamps
only matter for backtracking, which this claim does not exercise. -/

structure RevBitSet where
  size : Nat
  words : List Nat

/-- Modelled from the spec: `RevBitSet::IsSet(pos)` tests bit `pos % 64` of
word `pos / 64`. -/
def RevBitSet.IsSet (s : RevBitSet) (pos : Nat) : Bool :=
  (s.words.getD (pos / 64) 0).testBit (pos % 64)

/-- Modelled from the spec: `RevBitSet::SetToOne(pos)` sets bit `pos % 64`
of word `pos / 64`. -/
def RevBitSet.SetToOne (s : RevBitSet) (pos : Nat) : RevBitSet :=
  let w := s.words.getD (pos / 64) 0
  { s with words := s.words.set (pos / 64) (w ||| (1 <<< (pos % 64))) }

/-- Modelled from the spec: `RevBitSet::SetToZero(pos)` clears bit
`pos % 64` of word `pos / 64` (the mask keeps the other 63 bits). -/
def RevBitSet.SetToZero (s : RevBitSet) (pos : Nat) : RevBitSet :=
  let w := s.words.getD (pos / 64) 0
  { s with words := s.words.set (pos / 64) (w &&& ((2 ^ 64 - 1) ^^^ (1 <<< (pos % 64)))) }

structure RevBitMatrix where
  rows : Nat
  columns : Nat
  bitset : RevBitSet

/-- Embedding of `RevBitMatrix::IsSet` (lines 490-496): forwards to the
one-dimensional bitset at flat index `row * columns_ + column`. -/
def RevBitMatrix.IsSet (m : RevBitMatrix) (row column : Nat) : Bool :=
  m.bitset.IsSet (row * m.columns + column)

/-- Modelled from the spec: `RevBitMatrix::SetToOne(row, column)` acts on
the same flat index `row * columns + column`. -/
def RevBitMatrix.SetToOne (m : RevBitMatrix) (row column : Nat) : RevBitMatrix :=
  { m with bitset := m.bitset.SetToOne (row * m.columns + column) }

/-- Modelled from the spec: `RevBitMatrix::SetToZero(row, column)` acts on
the same flat index `row * columns + column`. -/
def RevBitMatrix.SetToZero (m : RevBitMatrix) (row column : Nat) : RevBitMatrix :=
  { m with bitset := m.bitset.SetToZero (row * m.columns + column) }

theorem flat_index_inj (cols a b ca cb : Nat) (hca : ca < cols) (hcb : cb < cols)
    (h : a * cols + ca = b * cols + cb) : a = b ∧ ca = cb := by
  have ha : a = b := by
    rcases Nat.lt_trichotomy a b with hlt | heq | hgt
    · have h1 : (a + 1) * cols ≤ b * cols := Nat.mul_le_mul_right cols hlt
      rw [Nat.succ_mul] at h1
      omega
    · exact heq
    · have h1 : (b + 1) * cols ≤ a * cols := Nat.mul_le_mul_right cols hgt
      rw [Nat.succ_mul] at h1
      omega
  refine ⟨ha, ?_⟩
  subst ha
  omega

theorem RevBitSet.isSet_setToOne_self (s : RevBitSet) (pos : Nat)
    (h : pos / 64 < s.words.length) : (s.SetToOne pos).IsSet pos = true := by
  simp only [RevBitSet.SetToOne, RevBitSet.IsSet, List.getD_eq_getElem?_getD]
  rw [List.getElem?_set_self (by simpa using h)]
  simp only [Option.getD_some]
  rw [Nat.testBit_or, Nat.testBit_shiftLeft]
  simp

theorem RevBitSet.isSet_setToZero_self (s : RevBitSet) (pos : Nat)
    (h : pos / 64 < s.words.length) : (s.SetToZero pos).IsSet pos = false := by
  simp only [RevBitSet.SetToZero, RevBitSet.IsSet, List.getD_eq_getElem?_getD]
  rw [List.getElem?_set_self (by simpa using h)]
  simp only [Option.getD_some]
  rw [Nat.testBit_and, Nat.testBit_xor, Nat.testBit_shiftLeft,
      Nat.testBit_two_pow_sub_one]
  have hlt : pos % 64 < 64 := Nat.mod_lt pos (by omega)
  simp [hlt]

theorem RevBitSet.isSet_setToOne_other (s : RevBitSet) (pos q : Nat)
    (hne : q ≠ pos) : (s.SetToOne pos).IsSet q = s.IsSet q := by
  simp only [RevBitSet.SetToOne, RevBitSet.IsSet, List.getD_eq_getElem?_getD]
  by_cases hw : q / 64 = pos / 64
  · have hb : q % 64 ≠ pos % 64 := by omega
    rw [hw]
    by_cases hlen : pos / 64 < s.words.length
    · rw [List.getElem?_set_self hlen]
      simp only [Option.getD_some]
      have h1 : (1 : Nat) <<< (pos % 64) = 2 ^ (pos % 64) := by
        rw [Nat.shiftLeft_eq, Nat.one_mul]
      rw [h1, Nat.testBit_or, Nat.testBit_two_pow,
          decide_eq_false (by omega : ¬(pos % 64 = q % 64))]
      simp
    · rw [List.set_eq_of_length_le (by omega)]
  · rw [List.getElem?_set_ne (fun hh => hw hh.symm)]

/-- C9: for a `RevBitMatrix` with r rows and c columns and indices
`0 <= row < r`, `0 <= column < c`, `IsSet(row, column)` equals the
underlying `RevBitSet::IsSet(row * c + column)`, and `SetToOne` /
`SetToZero` act on the same flat index `row * c + column`: they set /
clear exactly that bit of the flat bitset and leave every other cell of
the matrix unchanged. -/
theorem claim_C9_revBitMatrix_flat_index (m : RevBitMatrix) (row column : Nat)
    (_hr : row < m.rows) (hc : column < m.columns)
    (hlen : (row * m.columns + column) / 64 < m.bitset.words.length) :
    (m.IsSet row column = m.bitset.IsSet (row * m.columns + column)) ∧
    ((m.SetToOne row column).bitset = m.bitset.SetToOne (row * m.columns + column)) ∧
    ((m.SetToZero row column).bitset = m.bitset.SetToZero (row * m.columns + column)) ∧
    ((m.SetToOne row column).IsSet row column = true) ∧
    ((m.SetToZero row column).IsSet row column = false) ∧
    (∀ r' c', r' < m.rows → c' < m.columns → (r', c') ≠ (row, column) →
      (m.SetToOne row column).IsSet r' c' = m.IsSet r' c') := by
  refine ⟨rfl, rfl, rfl, ?_, ?_, ?_⟩
  · exact RevBitSet.isSet_setToOne_self m.bitset (row * m.columns + column) hlen
  · exact RevBitSet.isSet_setToZero_self m.bitset (row * m.columns + column) hlen
  · intro r' c' _ hc' hne
    apply RevBitSet.isSet_setToOne_other
    intro heq
    obtain ⟨h1, h2⟩ := flat_index_inj m.columns r' row c' column hc' hc heq
    exact hne (by rw [h1, h2])

theorem claim_C9_witness :
    ((RevBitMatrix.mk 2 3 (RevBitSet.mk 6 [0])).IsSet 1 2
        = (RevBitMatrix.mk 2 3 (RevBitSet.mk 6 [0])).bitset.IsSet (1 * 3 + 2)) ∧
    (((RevBitMatrix.mk 2 3 (RevBitSet.mk 6 [0])).SetToOne 1 2).IsSet 1 2 = true) := by
  have h := claim_C9_revBitMatrix_flat_index (RevBitMatrix.mk 2 3 (RevBitSet.mk 6 [0]))
    1 2 (by decide) (by decide) (by decide)
  exact ⟨h.1, h.2.2.2.1⟩

/- ===================== RevImmutableMultiMap =====================
`RevImmutableMultiMap<K, V>` (constraint_solveri.h, lines 296-401) is a
closed-addressing hash table whose buckets are singly-linked chains of
immutable `(key, value, next)` cells; all of `Insert`, `Double`,
`ContainsKey`, `FindWithDefault` and `num_items` are fully inline in the
header.  The embedding is parametric in the hash function, matching the
`Hash1` overload set of the template; a bucket chain is a list with the
head first, and the bucket array is a list of chains.  `Insert` conses the
new cell onto the head of bucket `Hash1(key) % size_`, increments the
reversible item count and calls `Double` when the count exceeds twice the
bucket-array size.  `Double` doubles the array and walks every old chain
head-to-tail, re-consing each cell onto its new bucket. -/

structure RevImmutableMultiMap (K V : Type) where
  hash : K → Nat
  buckets : List (List (K × V))
  numItems : Nat

/-- Embedding of the constructor (lines 298-304): `initial_size` empty
buckets, zero items. -/
def RevImmutableMultiMap.init {K V : Type} (hash : K → Nat) (n : Nat) :
    RevImmutableMultiMap K V := ⟨hash, List.replicate n [], 0⟩

def RevImmutableMultiMap.size {K V : Type} (m : RevImmutableMultiMap K V) : Nat :=
  m.buckets.length

def RevImmutableMultiMap.bucketAt {K V : Type} (m : RevImmutableMultiMap K V)
    (i : Nat) : List (K × V) := m.buckets.getD i []

/-- Chain walk shared by `ContainsKey` (lines 311-321) and `FindWithDefault`
(lines 326-336): follow `next` pointers, return the first cell whose key
compares equal. -/
def lookupChain {K V : Type} [DecidableEq K] (k : K) : List (K × V) → Option V
  | [] => none
  | (k', v) :: rest => if k' = k then some v else lookupChain k rest

/-- Embedding of `RevImmutableMultiMap::ContainsKey` (lines 311-321). -/
def RevImmutableMultiMap.ContainsKey {K V : Type} [DecidableEq K]
    (m : RevImmutableMultiMap K V) (k : K) : Bool :=
  (lookupChain k (m.bucketAt (m.hash k % m.size))).isSome

/-- Embedding of `RevImmutableMultiMap::FindWithDefault` (lines 326-336). -/
def RevImmutableMultiMap.FindWithDefault {K V : Type} [DecidableEq K]
    (m : RevImmutableMultiMap K V) (k : K) (d : V) : V :=
  (lookupChain k (m.bucketAt (m.hash k % m.size))).getD d

/-- One step of the rehash loop in `Double` (lines 383-394): link the cell
onto the head of its new bucket. -/
def reinsertCell {K V : Type} (hash : K → Nat) (bs : List (List (K × V)))
    (c : K × V) : List (List (K × V)) :=
  bs.set (hash c.1 % bs.length) (c :: bs.getD (hash c.1 % bs.length) [])

/-- Embedding of `RevImmutableMultiMap::Double` (lines 374-395): double the
bucket array and re-insert every cell, walking buckets in order and each
chain head-to-tail. -/
def RevImmutableMultiMap.Double {K V : Type} (m : RevImmutableMultiMap K V) :
    RevImmutableMultiMap K V :=
  let nb := m.buckets.flatten.foldl (reinsertCell m.hash)
    (List.replicate (2 * m.buckets.length) [])
  ⟨m.hash, nb, m.numItems⟩

/-- First half of `RevImmutableMultiMap::Insert` (lines 339-345): cons the
new cell at the head of bucket `Hash1(key) % size_` (the same pointer
rewiring as one step of the rehash loop) and increment `num_items_`. -/
def RevImmutableMultiMap.insertStep {K V : Type} (m : RevImmutableMultiMap K V)
    (k : K) (v : V) : RevImmutableMultiMap K V :=
  ⟨m.hash, reinsertCell m.hash m.buckets (k, v), m.numItems + 1⟩

/-- Embedding of `RevImmutableMultiMap::Insert` (lines 339-349): the head
cons and increment, then `Double()` when `num_items_ > 2 * size_`. -/
def RevImmutableMultiMap.Insert {K V : Type} (m : RevImmutableMultiMap K V)
    (k : K) (v : V) : RevImmutableMultiMap K V :=
  let m' := m.insertStep k v
  if 2 * m'.size < m'.numItems then m'.Double else m'

/-- Hash-table well-formedness: at least one bucket, and every cell sits in
the bucket its key hashes to. -/
def RevImmutableMultiMap.WF {K V : Type} (m : RevImmutableMultiMap K V) : Prop :=
  0 < m.buckets.length ∧
  ∀ i, i < m.buckets.length → ∀ p ∈ m.bucketAt i,
    m.hash p.1 % m.buckets.length = i

instance {K V : Type} (m : RevImmutableMultiMap K V) : Decidable m.WF :=
  inferInstanceAs (Decidable (0 < m.buckets.length ∧
    ∀ i, i < m.buckets.length → ∀ p ∈ m.bucketAt i,
      m.hash p.1 % m.buckets.length = i))

theorem mem_getD_set {A : Type} (bs : List (List A)) (j : Nat) (x : List A)
    (hj : j < bs.length) (i : Nat) (p : A) :
    p ∈ (bs.set j x).getD i [] ↔
      (i = j ∧ p ∈ x) ∨ (i ≠ j ∧ p ∈ bs.getD i []) := by
  by_cases hij : i = j
  · subst hij
    rw [List.getD_eq_getElem?_getD, List.getElem?_set_self hj]
    simp
  · rw [List.getD_eq_getElem?_getD, List.getElem?_set_ne (fun hh => hij hh.symm),
        ← List.getD_eq_getElem?_getD]
    simp [hij]

theorem mem_flatten_iff_getD {A : Type} (bs : List (List A)) (p : A) :
    p ∈ bs.flatten ↔ ∃ i, i < bs.length ∧ p ∈ bs.getD i [] := by
  rw [List.mem_flatten]
  constructor
  · rintro ⟨l, hl, hp⟩
    obtain ⟨i, hi, hgl⟩ := List.getElem_of_mem hl
    exact ⟨i, hi, by rw [List.getD_eq_getElem?_getD, List.getElem?_eq_getElem hi, hgl]; exact hp⟩
  · rintro ⟨i, hi, hp⟩
    refine ⟨bs.getD i [], ?_, hp⟩
    rw [List.getD_eq_getElem?_getD, List.getElem?_eq_getElem hi]
    exact List.getElem_mem hi

theorem reinsert_foldl_length {K V : Type} (hash : K → Nat)
    (cells : List (K × V)) (bs : List (List (K × V))) :
    (cells.foldl (reinsertCell hash) bs).length = bs.length := by
  induction cells generalizing bs with
  | nil => rfl
  | cons c rest ih =>
    rw [List.foldl_cons, ih]
    simp [reinsertCell]

theorem mem_reinsert_foldl {K V : Type} (hash : K → Nat)
    (cells : List (K × V)) (bs : List (List (K × V))) (hlen : 0 < bs.length)
    (i : Nat) (p : K × V) :
    p ∈ (cells.foldl (reinsertCell hash) bs).getD i [] ↔
      (p ∈ cells ∧ i = hash p.1 % bs.length) ∨ p ∈ bs.getD i [] := by
  induction cells generalizing bs with
  | nil => simp
  | cons c rest ih =>
    rw [List.foldl_cons]
    have hlen1 : (reinsertCell hash bs c).length = bs.length := by
      simp [reinsertCell]
    rw [ih (reinsertCell hash bs c) (by omega), hlen1]
    have hj : hash c.1 % bs.length < bs.length := Nat.mod_lt _ hlen
    have hstep : ∀ q : K × V, q ∈ (reinsertCell hash bs c).getD i [] ↔
        (q = c ∧ i = hash c.1 % bs.length) ∨ q ∈ bs.getD i [] := by
      intro q
      unfold reinsertCell
      rw [mem_getD_set bs _ _ hj i q]
      constructor
      · rintro (⟨hi, hq⟩ | ⟨hne, hq⟩)
        · rcases List.mem_cons.mp hq with rfl | hq
          · exact Or.inl ⟨rfl, hi⟩
          · exact Or.inr (by rw [hi]; exact hq)
        · exact Or.inr hq
      · rintro (⟨rfl, hi⟩ | hq)
        · exact Or.inl ⟨hi, List.mem_cons_self q _⟩
        · by_cases hi : i = hash c.1 % bs.length
          · exact Or.inl ⟨hi, List.mem_cons_of_mem c (by rw [← hi]; exact hq)⟩
          · exact Or.inr ⟨hi, hq⟩
    rw [hstep p]
    constructor
    · rintro (⟨hrest, hi⟩ | ⟨rfl, hi⟩ | hq)
      · exact Or.inl ⟨List.mem_cons_of_mem c hrest, hi⟩
      · exact Or.inl ⟨List.mem_cons_self p rest, hi⟩
      · exact Or.inr hq
    · rintro (⟨hmem, hi⟩ | hq)
      · rcases List.mem_cons.mp hmem with rfl | hrest
        · exact Or.inr (Or.inl ⟨rfl, hi⟩)
        · exact Or.inl ⟨hrest, hi⟩
      · exact Or.inr (Or.inr hq)

theorem RevImmutableMultiMap.double_length {K V : Type}
    (m : RevImmutableMultiMap K V) :
    m.Double.buckets.length = 2 * m.buckets.length := by
  show (m.buckets.flatten.foldl (reinsertCell m.hash)
      (List.replicate (2 * m.buckets.length) [])).length = 2 * m.buckets.length
  rw [reinsert_foldl_length, List.length_replicate]

theorem RevImmutableMultiMap.mem_bucket_double {K V : Type}
    (m : RevImmutableMultiMap K V) (hlen : 0 < m.buckets.length)
    (i : Nat) (p : K × V) :
    p ∈ m.Double.bucketAt i ↔
      p ∈ m.buckets.flatten ∧ i = m.hash p.1 % (2 * m.buckets.length) := by
  show p ∈ (m.buckets.flatten.foldl (reinsertCell m.hash)
      (List.replicate (2 * m.buckets.length) [])).getD i [] ↔ _
  rw [mem_reinsert_foldl m.hash m.buckets.flatten _ (by simp; omega) i p,
      List.length_replicate]
  have hrep : ((List.replicate (2 * m.buckets.length) []).getD i : List (K × V) → List (K × V)) [] = [] := by
    rw [List.getD_eq_getElem?_getD]
    rcases Nat.lt_or_ge i (2 * m.buckets.length) with hi | hi
    · rw [List.getElem?_eq_getElem (by simpa using hi)]
      simp
    · rw [List.getElem?_eq_none (by simpa using hi)]
      rfl
  rw [hrep]
  simp

theorem RevImmutableMultiMap.wf_double {K V : Type}
    (m : RevImmutableMultiMap K V) (hwf : m.WF) : m.Double.WF := by
  obtain ⟨hlen, hplace⟩ := hwf
  constructor
  · rw [RevImmutableMultiMap.double_length]; omega
  · intro i hi p hp
    rw [RevImmutableMultiMap.mem_bucket_double m hlen i p] at hp
    rw [RevImmutableMultiMap.double_length]
    exact hp.2.symm

theorem RevImmutableMultiMap.mem_flatten_double {K V : Type}
    (m : RevImmutableMultiMap K V) (hlen : 0 < m.buckets.length) (p : K × V) :
    p ∈ m.Double.buckets.flatten ↔ p ∈ m.buckets.flatten := by
  rw [mem_flatten_iff_getD]
  constructor
  · rintro ⟨i, hi, hp⟩
    exact ((RevImmutableMultiMap.mem_bucket_double m hlen i p).mp hp).1
  · intro hp
    refine ⟨m.hash p.1 % (2 * m.buckets.length), ?_, ?_⟩
    · rw [RevImmutableMultiMap.double_length]
      exact Nat.mod_lt _ (by omega)
    · exact (RevImmutableMultiMap.mem_bucket_double m hlen _ p).mpr ⟨hp, rfl⟩

theorem lookupChain_isSome_iff {K V : Type} [DecidableEq K] (k : K)
    (chain : List (K × V)) :
    (lookupChain k chain).isSome = true ↔ ∃ v, (k, v) ∈ chain := by
  induction chain with
  | nil => simp [lookupChain]
  | cons c rest ih =>
    obtain ⟨k', v⟩ := c
    show (if k' = k then some v else lookupChain k rest).isSome = true ↔ _
    by_cases hk : k' = k
    · subst hk
      simp
    · rw [if_neg hk, ih]
      constructor
      · rintro ⟨v', hv'⟩
        exact ⟨v', List.mem_cons_of_mem _ hv'⟩
      · rintro ⟨v', hv'⟩
        rcases List.mem_cons.mp hv' with heq | hmem
        · exact absurd (congrArg Prod.fst heq).symm hk
        · exact ⟨v', hmem⟩

theorem lookupChain_some_mem {K V : Type} [DecidableEq K] (k : K)
    (chain : List (K × V)) (v : V) (h : lookupChain k chain = some v) :
    (k, v) ∈ chain := by
  induction chain with
  | nil => exact absurd h (by simp [lookupChain])
  | cons c rest ih =>
    obtain ⟨k', v'⟩ := c
    rw [show lookupChain k ((k', v') :: rest)
          = if k' = k then some v' else lookupChain k rest from rfl] at h
    by_cases hk : k' = k
    · rw [if_pos hk] at h
      subst hk
      rw [Option.some_inj] at h
      subst h
      exact List.mem_cons_self _ _
    · rw [if_neg hk] at h
      exact List.mem_cons_of_mem _ (ih h)

theorem RevImmutableMultiMap.containsKey_iff {K V : Type} [DecidableEq K]
    (m : RevImmutableMultiMap K V) (hwf : m.WF) (k : K) :
    m.ContainsKey k = true ↔ ∃ v, (k, v) ∈ m.buckets.flatten := by
  obtain ⟨hlen, hplace⟩ := hwf
  show (lookupChain k (m.bucketAt (m.hash k % m.size))).isSome = true ↔ _
  rw [lookupChain_isSome_iff]
  constructor
  · rintro ⟨v, hv⟩
    refine ⟨v, (mem_flatten_iff_getD m.buckets (k, v)).mpr
      ⟨m.hash k % m.size, Nat.mod_lt _ hlen, hv⟩⟩
  · rintro ⟨v, hv⟩
    obtain ⟨i, hi, hmem⟩ := (mem_flatten_iff_getD m.buckets (k, v)).mp hv
    have hpl := hplace i hi (k, v) hmem
    refine ⟨v, ?_⟩
    show (k, v) ∈ m.bucketAt (m.hash k % m.size)
    have heq : m.hash k % m.size = i := hpl
    rw [heq]
    exact hmem

theorem RevImmutableMultiMap.findWithDefault_mem {K V : Type} [DecidableEq K]
    (m : RevImmutableMultiMap K V) (hwf : m.WF) (k : K) (d : V)
    (h : m.ContainsKey k = true) :
    ∃ v', m.FindWithDefault k d = v' ∧ (k, v') ∈ m.buckets.flatten := by
  obtain ⟨hlen, hplace⟩ := hwf
  have hsome : (lookupChain k (m.bucketAt (m.hash k % m.size))).isSome = true := h
  obtain ⟨v', hv'⟩ := Option.isSome_iff_exists.mp hsome
  refine ⟨v', ?_, ?_⟩
  · show (lookupChain k (m.bucketAt (m.hash k % m.size))).getD d = v'
    rw [hv']
    rfl
  · have hmem := lookupChain_some_mem k _ v' hv'
    exact (mem_flatten_iff_getD m.buckets (k, v')).mpr
      ⟨m.hash k % m.size, Nat.mod_lt _ hlen, hmem⟩

theorem mem_bucket_reinsertCell {K V : Type} (hash : K → Nat)
    (bs : List (List (K × V))) (c : K × V) (hlen : 0 < bs.length)
    (i : Nat) (p : K × V) :
    p ∈ (reinsertCell hash bs c).getD i [] ↔
      (p = c ∧ i = hash c.1 % bs.length) ∨ p ∈ bs.getD i [] := by
  have hj : hash c.1 % bs.length < bs.length := Nat.mod_lt _ hlen
  unfold reinsertCell
  rw [mem_getD_set bs _ _ hj i p]
  constructor
  · rintro (⟨hi, hq⟩ | ⟨hne, hq⟩)
    · rcases List.mem_cons.mp hq with rfl | hq
      · exact Or.inl ⟨rfl, hi⟩
      · exact Or.inr (by rw [hi]; exact hq)
    · exact Or.inr hq
  · rintro (⟨rfl, hi⟩ | hq)
    · exact Or.inl ⟨hi, List.mem_cons_self p _⟩
    · by_cases hi : i = hash c.1 % bs.length
      · exact Or.inl ⟨hi, List.mem_cons_of_mem c (by rw [← hi]; exact hq)⟩
      · exact Or.inr ⟨hi, hq⟩

theorem mem_flatten_reinsertCell {K V : Type} (hash : K → Nat)
    (bs : List (List (K × V))) (c : K × V) (hlen : 0 < bs.length) (p : K × V) :
    p ∈ (reinsertCell hash bs c).flatten ↔ p = c ∨ p ∈ bs.flatten := by
  rw [mem_flatten_iff_getD]
  have hl : (reinsertCell hash bs c).length = bs.length := by simp [reinsertCell]
  constructor
  · rintro ⟨i, hi, hp⟩
    rcases (mem_bucket_reinsertCell hash bs c hlen i p).mp hp with ⟨rfl, _⟩ | hp
    · exact Or.inl rfl
    · exact Or.inr ((mem_flatten_iff_getD bs p).mpr ⟨i, by omega, hp⟩)
  · rintro (rfl | hp)
    · refine ⟨hash p.1 % bs.length, by rw [hl]; exact Nat.mod_lt _ hlen, ?_⟩
      exact (mem_bucket_reinsertCell hash bs p hlen _ p).mpr (Or.inl ⟨rfl, rfl⟩)
    · obtain ⟨i, hi, hp⟩ := (mem_flatten_iff_getD bs p).mp hp
      exact ⟨i, by omega, (mem_bucket_reinsertCell hash bs c hlen i p).mpr (Or.inr hp)⟩

theorem RevImmutableMultiMap.insertStep_length {K V : Type}
    (m : RevImmutableMultiMap K V) (k : K) (v : V) :
    (m.insertStep k v).buckets.length = m.buckets.length := by
  show (reinsertCell m.hash m.buckets (k, v)).length = m.buckets.length
  simp [reinsertCell]

theorem RevImmutableMultiMap.wf_insertStep {K V : Type}
    (m : RevImmutableMultiMap K V) (hwf : m.WF) (k : K) (v : V) :
    (m.insertStep k v).WF := by
  obtain ⟨hlen, hplace⟩ := hwf
  constructor
  · rw [RevImmutableMultiMap.insertStep_length]; omega
  · intro i hi p hp
    rw [RevImmutableMultiMap.insertStep_length] at hi
    have hp' : p ∈ (reinsertCell m.hash m.buckets (k, v)).getD i [] := hp
    rcases (mem_bucket_reinsertCell m.hash m.buckets (k, v) hlen i p).mp hp' with
      ⟨rfl, hi'⟩ | hmem
    · rw [RevImmutableMultiMap.insertStep_length]
      exact hi'.symm
    · rw [RevImmutableMultiMap.insertStep_length]
      exact hplace i hi p hmem

theorem RevImmutableMultiMap.mem_flatten_insertStep {K V : Type}
    (m : RevImmutableMultiMap K V) (hlen : 0 < m.buckets.length)
    (k : K) (v : V) (p : K × V) :
    p ∈ (m.insertStep k v).buckets.flatten ↔ p = (k, v) ∨ p ∈ m.buckets.flatten :=
  mem_flatten_reinsertCell m.hash m.buckets (k, v) hlen p

theorem RevImmutableMultiMap.insert_cases {K V : Type}
    (m : RevImmutableMultiMap K V) (k : K) (v : V) :
    (2 * m.buckets.length < m.numItems + 1 →
        m.Insert k v = (m.insertStep k v).Double) ∧
    (¬(2 * m.buckets.length < m.numItems + 1) →
        m.Insert k v = m.insertStep k v) := by
  constructor <;> intro h <;>
    simp only [RevImmutableMultiMap.Insert, RevImmutableMultiMap.size,
      RevImmutableMultiMap.insertStep, reinsertCell, List.length_set] <;>
    simp [h]

theorem RevImmutableMultiMap.insert_numItems {K V : Type}
    (m : RevImmutableMultiMap K V) (k : K) (v : V) :
    (m.Insert k v).numItems = m.numItems + 1 := by
  by_cases h : 2 * m.buckets.length < m.numItems + 1
  · rw [(RevImmutableMultiMap.insert_cases m k v).1 h]
    rfl
  · rw [(RevImmutableMultiMap.insert_cases m k v).2 h]
    rfl

theorem RevImmutableMultiMap.insert_length {K V : Type}
    (m : RevImmutableMultiMap K V) (k : K) (v : V) :
    (m.Insert k v).buckets.length =
      if 2 * m.buckets.length < m.numItems + 1 then 2 * m.buckets.length
      else m.buckets.length := by
  by_cases h : 2 * m.buckets.length < m.numItems + 1
  · rw [(RevImmutableMultiMap.insert_cases m k v).1 h, if_pos h,
        RevImmutableMultiMap.double_length, RevImmutableMultiMap.insertStep_length]
  · rw [(RevImmutableMultiMap.insert_cases m k v).2 h, if_neg h,
        RevImmutableMultiMap.insertStep_length]

theorem RevImmutableMultiMap.wf_insert {K V : Type}
    (m : RevImmutableMultiMap K V) (hwf : m.WF) (k : K) (v : V) :
    (m.Insert k v).WF := by
  by_cases h : 2 * m.buckets.length < m.numItems + 1
  · rw [(RevImmutableMultiMap.insert_cases m k v).1 h]
    exact RevImmutableMultiMap.wf_double _ (RevImmutableMultiMap.wf_insertStep m hwf k v)
  · rw [(RevImmutableMultiMap.insert_cases m k v).2 h]
    exact RevImmutableMultiMap.wf_insertStep m hwf k v

theorem RevImmutableMultiMap.mem_flatten_insert {K V : Type}
    (m : RevImmutableMultiMap K V) (hwf : m.WF) (k : K) (v : V) (p : K × V) :
    p ∈ (m.Insert k v).buckets.flatten ↔ p = (k, v) ∨ p ∈ m.buckets.flatten := by
  have hlen := hwf.1
  have hlen' : 0 < (m.insertStep k v).buckets.length := by
    rw [RevImmutableMultiMap.insertStep_length]; omega
  by_cases h : 2 * m.buckets.length < m.numItems + 1
  · rw [(RevImmutableMultiMap.insert_cases m k v).1 h,
        RevImmutableMultiMap.mem_flatten_double _ hlen' p,
        RevImmutableMultiMap.mem_flatten_insertStep m hlen k v p]
  · rw [(RevImmutableMultiMap.insert_cases m k v).2 h,
        RevImmutableMultiMap.mem_flatten_insertStep m hlen k v p]

/-- C1: for a well-formed `RevImmutableMultiMap`, `Insert(k, v)` increases
`num_items()` by exactly one; afterwards `ContainsKey(k)` returns true and
`FindWithDefault(k, d)` returns a value stored in the table for k (the
just-inserted one or an earlier one, the table contents being exactly the
inserted pairs) rather than the default d; the rehash `Double()` is
triggered exactly when, after the increment, `num_items() > 2 *` the
bucket-array size, observable as the bucket array doubling; and after
`Double()` every previously stored key is still found by `ContainsKey` and
`FindWithDefault`. -/
theorem claim_C1_revImmutableMultiMap_insert {K V : Type} [DecidableEq K]
    (m : RevImmutableMultiMap K V) (k : K) (v : V) (d : V) (hwf : m.WF) :
    ((m.Insert k v).numItems = m.numItems + 1) ∧
    ((m.Insert k v).buckets.length =
      if 2 * m.buckets.length < m.numItems + 1 then 2 * m.buckets.length
      else m.buckets.length) ∧
    ((m.Insert k v).ContainsKey k = true) ∧
    (∃ v', (m.Insert k v).FindWithDefault k d = v' ∧
      ((k, v') = (k, v) ∨ (k, v') ∈ m.buckets.flatten)) ∧
    (∀ p, p ∈ (m.Insert k v).buckets.flatten ↔ p = (k, v) ∨ p ∈ m.buckets.flatten) ∧
    (∀ k', m.Double.ContainsKey k' = m.ContainsKey k') ∧
    (∀ k', m.ContainsKey k' = true →
      ∃ v', m.Double.FindWithDefault k' d = v' ∧ (k', v') ∈ m.buckets.flatten) := by
  have hwfi := RevImmutableMultiMap.wf_insert m hwf k v
  have hwfd := RevImmutableMultiMap.wf_double m hwf
  have hd : ∀ p : K × V, p ∈ m.Double.buckets.flatten ↔ p ∈ m.buckets.flatten :=
    RevImmutableMultiMap.mem_flatten_double m hwf.1
  have hck : (m.Insert k v).ContainsKey k = true :=
    (RevImmutableMultiMap.containsKey_iff _ hwfi k).mpr
      ⟨v, (RevImmutableMultiMap.mem_flatten_insert m hwf k v (k, v)).mpr (Or.inl rfl)⟩
  refine ⟨RevImmutableMultiMap.insert_numItems m k v,
    RevImmutableMultiMap.insert_length m k v, hck, ?_, ?_, ?_, ?_⟩
  · obtain ⟨v', hv', hmem⟩ :=
      RevImmutableMultiMap.findWithDefault_mem _ hwfi k d hck
    exact ⟨v', hv',
      (RevImmutableMultiMap.mem_flatten_insert m hwf k v (k, v')).mp hmem⟩
  · exact RevImmutableMultiMap.mem_flatten_insert m hwf k v
  · intro k'
    have h1 := RevImmutableMultiMap.containsKey_iff m hwf k'
    have h2 := RevImmutableMultiMap.containsKey_iff m.Double hwfd k'
    cases hcm : m.ContainsKey k' with
    | false =>
      refine Bool.eq_false_iff.mpr (fun hc => ?_)
      obtain ⟨w, hw⟩ := h2.mp hc
      have hct : m.ContainsKey k' = true := h1.mpr ⟨w, (hd (k', w)).mp hw⟩
      rw [hcm] at hct
      exact Bool.false_ne_true hct
    | true =>
      obtain ⟨w, hw⟩ := h1.mp hcm
      exact h2.mpr ⟨w, (hd (k', w)).mpr hw⟩
  · intro k' hk'
    have h1 := RevImmutableMultiMap.containsKey_iff m hwf k'
    have h2 := RevImmutableMultiMap.containsKey_iff m.Double hwfd k'
    obtain ⟨w, hw⟩ := h1.mp hk'
    have hcd : m.Double.ContainsKey k' = true := h2.mpr ⟨w, (hd (k', w)).mpr hw⟩
    obtain ⟨v', hv', hmem⟩ :=
      RevImmutableMultiMap.findWithDefault_mem m.Double hwfd k' d hcd
    exact ⟨v', hv', (hd (k', v')).mp hmem⟩

theorem claim_C1_witness :
    ((RevImmutableMultiMap.init (V := Nat) (fun x : Nat => x) 1).Insert 5 7).numItems
        = (RevImmutableMultiMap.init (V := Nat) (fun x : Nat => x) 1).numItems + 1 ∧
    ((RevImmutableMultiMap.init (V := Nat) (fun x : Nat => x) 1).Insert 5 7).ContainsKey 5
        = true := by
  have h := claim_C1_revImmutableMultiMap_insert
    (RevImmutableMultiMap.init (V := Nat) (fun x : Nat => x) 1) 5 7 0 (by decide)
  exact ⟨h.1, h.2.2.1⟩

/- ===================== IntVarLocalSearchOperator =====================
`IntVarLocalSearchOperator` (constraint_solveri.h, lines 810-856) keeps
parallel arrays `values_` / `old_values_` and bitmaps `activated_` /
`was_activated_` over the tracked variables, a change list `changes_` with
bitmap `has_changed_`, and a per-delta bitmap `has_delta_changed_`.  Only
the declarations are in the header; the bodies of `Start`, `SetValue`,
`Activate`, `Deactivate`, `MarkChange` and `ApplyChanges` are in
constraint_solver.cc, which is not under src/.  Modelled from the spec
(section 4.7): `Start` copies the assignment into both arrays and both
bitmaps and clears the change machinery; `SetValue(i, v)` / `Activate(i)` /
`Deactivate(i)` mutate `values` / `activated` and append i to the change
list if not already flagged in `has_changed`; `ApplyChanges` walks the
change list and emits the minimal delta (entries whose current value
differs from `old_values` or whose activation differs), with `deltadelta`
the entries of the delta also flagged as changed since the previous
proposal. -/

structure IntVarLocalSearchOperator where
  size : Nat
  values : Nat → Int
  oldValues : Nat → Int
  activated : Nat → Bool
  wasActivated : Nat → Bool
  changes : List Nat
  hasChanged : Nat → Bool
  hasDeltaChanged : Nat → Bool

/-- Modelled from the spec: `Start` copies the assignment values into both
arrays and both bitmaps and resets the change list. -/
def IntVarLocalSearchOperator.start (n : Nat) (a : Nat → Int) (act : Nat → Bool) :
    IntVarLocalSearchOperator :=
  ⟨n, a, a, act, act, [], fun _ => false, fun _ => false⟩

/-- Modelled from the spec: `MarkChange(i)` appends i to the change list if
not already flagged in `has_changed`, and flags it in both bitmaps. -/
def IntVarLocalSearchOperator.markChange (s : IntVarLocalSearchOperator)
    (i : Nat) : IntVarLocalSearchOperator :=
  { s with changes := if s.hasChanged i then s.changes else s.changes ++ [i],
           hasChanged := fun j => if j = i then true else s.hasChanged j,
           hasDeltaChanged := fun j => if j = i then true else s.hasDeltaChanged j }

/-- Modelled from the spec: `SetValue(i, v)` writes `values_[i]` and marks
the change. -/
def IntVarLocalSearchOperator.SetValue (s : IntVarLocalSearchOperator)
    (i : Nat) (v : Int) : IntVarLocalSearchOperator :=
  ({ s with values := fun j => if j = i then v else s.values j }).markChange i

/-- Modelled from the spec: `Activate(i)` sets the activation bit and marks
the change. -/
def IntVarLocalSearchOperator.Activate (s : IntVarLocalSearchOperator)
    (i : Nat) : IntVarLocalSearchOperator :=
  ({ s with activated := fun j => if j = i then true else s.activated j }).markChange i

/-- Modelled from the spec: `Deactivate(i)` clears the activation bit and
marks the change. -/
def IntVarLocalSearchOperator.Deactivate (s : IntVarLocalSearchOperator)
    (i : Nat) : IntVarLocalSearchOperator :=
  ({ s with activated := fun j => if j = i then false else s.activated j }).markChange i

/-- Variable i differs from its base: value moved or activation flipped. -/
def IntVarLocalSearchOperator.differsB (s : IntVarLocalSearchOperator)
    (i : Nat) : Bool :=
  (s.values i != s.oldValues i) || (s.activated i != s.wasActivated i)

/-- Modelled from the spec: the variables `ApplyChanges` emits into `delta`
-- the entries of the change list whose current value differs from
`old_values` or whose activation differs. -/
def IntVarLocalSearchOperator.ApplyChangesDelta (s : IntVarLocalSearchOperator) :
    List Nat :=
  s.changes.filter (fun i => s.differsB i)

/-- Modelled from the spec: the variables `ApplyChanges` emits into
`deltadelta` -- the delta entries also flagged as changed since the
previous proposal. -/
def IntVarLocalSearchOperator.ApplyChangesDeltaDelta
    (s : IntVarLocalSearchOperator) : List Nat :=
  s.changes.filter (fun i => s.hasDeltaChanged i && s.differsB i)

inductive LSOp where
  | setValue (i : Nat) (v : Int)
  | activate (i : Nat)
  | deactivate (i : Nat)

def LSOp.index : LSOp → Nat
  | .setValue i _ => i
  | .activate i => i
  | .deactivate i => i

def IntVarLocalSearchOperator.applyOp (s : IntVarLocalSearchOperator) :
    LSOp → IntVarLocalSearchOperator
  | .setValue i v => s.SetValue i v
  | .activate i => s.Activate i
  | .deactivate i => s.Deactivate i

def IntVarLocalSearchOperator.applyOps (s : IntVarLocalSearchOperator)
    (ops : List LSOp) : IntVarLocalSearchOperator :=
  ops.foldl IntVarLocalSearchOperator.applyOp s

/-- Operator-state invariant maintained by the mutators: the change list
has no duplicates, `has_changed` tracks exactly the change list, a variable
never marked still equals its base, and changed indices are in range. -/
def IntVarLocalSearchOperator.Inv (s : IntVarLocalSearchOperator) : Prop :=
  s.changes.Nodup ∧
  (∀ i, i < s.size → (s.hasChanged i = true ↔ i ∈ s.changes)) ∧
  (∀ i, i < s.size → s.hasChanged i = false →
    s.values i = s.oldValues i ∧ s.activated i = s.wasActivated i) ∧
  (∀ i ∈ s.changes, i < s.size)

instance (s : IntVarLocalSearchOperator) : Decidable s.Inv :=
  inferInstanceAs (Decidable (s.changes.Nodup ∧
    (∀ i, i < s.size → (s.hasChanged i = true ↔ i ∈ s.changes)) ∧
    (∀ i, i < s.size → s.hasChanged i = false →
      s.values i = s.oldValues i ∧ s.activated i = s.wasActivated i) ∧
    (∀ i ∈ s.changes, i < s.size)))

theorem IntVarLocalSearchOperator.inv_start (n : Nat) (a : Nat → Int)
    (act : Nat → Bool) : (IntVarLocalSearchOperator.start n a act).Inv := by
  refine ⟨List.nodup_nil, ?_, ?_, ?_⟩ <;> simp [IntVarLocalSearchOperator.start]

theorem IntVarLocalSearchOperator.inv_markChange (s : IntVarLocalSearchOperator)
    (u : IntVarLocalSearchOperator) (i : Nat) (hi : i < s.size)
    (hinv : s.Inv)
    (hsize : u.size = s.size) (hch : u.changes = s.changes)
    (hhc : u.hasChanged = s.hasChanged)
    (hold : ∀ j, j ≠ i → u.values j = s.values j ∧ u.activated j = s.activated j)
    (hbase : u.oldValues = s.oldValues ∧ u.wasActivated = s.wasActivated) :
    (u.markChange i).Inv := by
  obtain ⟨hnd, hiff, hunchanged, hbound⟩ := hinv
  have hchangesEq : (u.markChange i).changes
      = if s.hasChanged i then s.changes else s.changes ++ [i] := by
    simp [IntVarLocalSearchOperator.markChange, hch, hhc]
  refine ⟨?_, ?_, ?_, ?_⟩
  · rw [hchangesEq]
    by_cases hc : s.hasChanged i
    · rw [if_pos hc]; exact hnd
    · rw [if_neg hc]
      refine List.Nodup.append hnd (List.nodup_singleton i) ?_
      intro a ha hb
      rw [List.mem_singleton] at hb
      subst hb
      exact hc ((hiff a (hbound a ha)).mpr ha)
  · intro j hjlt
    have hjs : j < s.size := by
      simpa [IntVarLocalSearchOperator.markChange, hsize] using hjlt
    show (if j = i then true else u.hasChanged j) = true ↔ _
    rw [hchangesEq, hhc]
    by_cases hj : j = i
    · subst hj
      rw [if_pos rfl]
      by_cases hc : s.hasChanged j
      · simp [if_pos hc, (hiff j hjs).mp hc]
      · simp [if_neg hc]
    · rw [if_neg hj]
      by_cases hc : s.hasChanged i
      · rw [if_pos hc]; exact hiff j hjs
      · rw [if_neg hc, hiff j hjs]
        simp [hj]
  · intro j hjlt hj
    have hjs : j < s.size := by
      simpa [IntVarLocalSearchOperator.markChange, hsize] using hjlt
    have hj2 : (if j = i then true else s.hasChanged j) = false := by
      simpa [IntVarLocalSearchOperator.markChange, hhc] using hj
    have hji : j ≠ i := by
      intro hcontra
      subst hcontra
      simp at hj2
    rw [if_neg hji] at hj2
    have h1 := hunchanged j hjs hj2
    have h2 := hold j hji
    constructor
    · show u.values j = u.oldValues j
      rw [h2.1, hbase.1, h1.1]
    · show u.activated j = u.wasActivated j
      rw [h2.2, hbase.2, h1.2]
  · intro j hj
    rw [hchangesEq] at hj
    show j < u.size
    rw [hsize]
    by_cases hc : s.hasChanged i
    · rw [if_pos hc] at hj
      exact hbound j hj
    · rw [if_neg hc] at hj
      rcases List.mem_append.mp hj with hj | hj
      · exact hbound j hj
      · rw [List.mem_singleton] at hj
        subst hj
        exact hi

theorem IntVarLocalSearchOperator.inv_applyOp (s : IntVarLocalSearchOperator)
    (op : LSOp) (hinv : s.Inv) (hi : op.index < s.size) :
    (s.applyOp op).Inv ∧ (s.applyOp op).size = s.size := by
  cases op with
  | setValue i v =>
    refine ⟨?_, rfl⟩
    exact IntVarLocalSearchOperator.inv_markChange s _ i hi hinv rfl rfl rfl
      (fun j hj => ⟨by simp [if_neg hj], rfl⟩) ⟨rfl, rfl⟩
  | activate i =>
    refine ⟨?_, rfl⟩
    exact IntVarLocalSearchOperator.inv_markChange s _ i hi hinv rfl rfl rfl
      (fun j hj => ⟨rfl, by simp [if_neg hj]⟩) ⟨rfl, rfl⟩
  | deactivate i =>
    refine ⟨?_, rfl⟩
    exact IntVarLocalSearchOperator.inv_markChange s _ i hi hinv rfl rfl rfl
      (fun j hj => ⟨rfl, by simp [if_neg hj]⟩) ⟨rfl, rfl⟩

theorem IntVarLocalSearchOperator.inv_applyOps (s : IntVarLocalSearchOperator)
    (ops : List LSOp) (hinv : s.Inv) (hops : ∀ op ∈ ops, op.index < s.size) :
    (s.applyOps ops).Inv ∧ (s.applyOps ops).size = s.size := by
  induction ops generalizing s with
  | nil => exact ⟨hinv, rfl⟩
  | cons op rest ih =>
    have h1 := IntVarLocalSearchOperator.inv_applyOp s op hinv
      (hops op (List.mem_cons_self op rest))
    have h2 := ih (s.applyOp op) h1.1
      (fun o ho => h1.2 ▸ hops o (List.mem_cons_of_mem op ho))
    refine ⟨h2.1, ?_⟩
    show ((s.applyOp op).applyOps rest).size = s.size
    rw [h2.2, h1.2]

/-- C4: for any reachable `IntVarLocalSearchOperator` state (a `Start`
followed by in-range `SetValue` / `Activate` / `Deactivate` calls -- the
states from which an accepted `MakeNextNeighbor` calls `ApplyChanges`),
the delta built by `ApplyChanges` mentions exactly, and once each, the
tracked variables whose current value differs from their base
(`old_values`) value or whose activation flag differs from their base
activation; and every entry of `deltadelta` is also an entry of `delta`.
The last conjunct shows every reachable state satisfies the invariant. -/
theorem claim_C4_applyChanges_minimal_delta (s : IntVarLocalSearchOperator)
    (hinv : s.Inv) (n : Nat) (base : Nat → Int) (act : Nat → Bool)
    (ops : List LSOp) (hops : ∀ op ∈ ops, op.index < n) :
    (∀ i, i ∈ s.ApplyChangesDelta ↔
      i < s.size ∧
        (s.values i ≠ s.oldValues i ∨ s.activated i ≠ s.wasActivated i)) ∧
    s.ApplyChangesDelta.Nodup ∧
    (∀ i ∈ s.ApplyChangesDeltaDelta, i ∈ s.ApplyChangesDelta) ∧
    ((IntVarLocalSearchOperator.start n base act).applyOps ops).Inv := by
  obtain ⟨hnd, hiff, hunchanged, hbound⟩ := hinv
  have hdiff : ∀ i, s.differsB i = true ↔
      (s.values i ≠ s.oldValues i ∨ s.activated i ≠ s.wasActivated i) := by
    intro i
    simp [IntVarLocalSearchOperator.differsB]
  refine ⟨?_, ?_, ?_, ?_⟩
  · intro i
    rw [IntVarLocalSearchOperator.ApplyChangesDelta, List.mem_filter]
    constructor
    · rintro ⟨hmem, hfilter⟩
      exact ⟨hbound i hmem, (hdiff i).mp hfilter⟩
    · rintro ⟨hlt, hne⟩
      have hch : i ∈ s.changes := by
        cases hch : s.hasChanged i with
        | false =>
          obtain ⟨h1, h2⟩ := hunchanged i hlt hch
          rcases hne with hne | hne
          · exact absurd h1 hne
          · exact absurd h2 hne
        | true => exact (hiff i hlt).mp hch
      exact ⟨hch, (hdiff i).mpr hne⟩
  · exact hnd.filter _
  · intro i hi
    rw [IntVarLocalSearchOperator.ApplyChangesDeltaDelta, List.mem_filter] at hi
    rw [IntVarLocalSearchOperator.ApplyChangesDelta, List.mem_filter]
    exact ⟨hi.1, (Bool.and_eq_true_iff.mp hi.2).2⟩
  · exact (IntVarLocalSearchOperator.inv_applyOps
      (IntVarLocalSearchOperator.start n base act) ops
      (IntVarLocalSearchOperator.inv_start n base act) hops).1

theorem claim_C4_witness :
    0 ∈ ((IntVarLocalSearchOperator.start 2 (fun _ => (0 : Int)) (fun _ => true)).applyOps
        [LSOp.setValue 0 5]).ApplyChangesDelta ∧
    ((IntVarLocalSearchOperator.start 2 (fun _ => (0 : Int)) (fun _ => true)).applyOps
        [LSOp.setValue 0 5]).ApplyChangesDelta.Nodup := by
  have hinv := (claim_C4_applyChanges_minimal_delta
    (IntVarLocalSearchOperator.start 0 (fun _ => (0 : Int)) (fun _ => true)) (by decide)
    2 (fun _ => (0 : Int)) (fun _ => true) [LSOp.setValue 0 5]
    (by intro op hop; rw [List.mem_singleton] at hop; subst hop; decide)).2.2.2
  have h := claim_C4_applyChanges_minimal_delta
    ((IntVarLocalSearchOperator.start 2 (fun _ => (0 : Int)) (fun _ => true)).applyOps
      [LSOp.setValue 0 5]) hinv 0 (fun _ => (0 : Int)) (fun _ => true) []
    (by intro op hop; cases hop)
  exact ⟨(h.1 0).mpr ⟨by decide, Or.inl (by decide)⟩, h.2.1⟩

/- ===================== PathOperator::MoveChain =====================
`MoveChain(before_chain, chain_end, destination)` and
`CheckChainValidity` are only declared in constraint_solveri.h (lines
1036-1038 and 1089-1091); their bodies are in constraint_solver.cc, which
is not under src/.  Modelled from the spec (section 4.7): MoveChain
"extracts the chain (Next(before) .. chain_end) and splices it after
destination", updating at most three next pointers --
  next(before_chain) := old next(chain_end)
  next(destination)  := old next(before_chain)   (the chain start)
  next(chain_end)    := old next(destination)
-- and, when path variables are tracked, rewriting the path id of every
node in the moved chain to destination's path id.  The precondition
enforced by `CheckChainValidity` is that the chain is contiguous and
non-empty and that destination is not inside it.  The chain is recovered by
walking `next` from `Next(before_chain)` to `chain_end` with fuel
`number_of_nexts` (enough, as a duplicate-free chain of in-range nodes is
no longer). -/

structure PathNextState where
  n : Nat
  next : Nat → Nat
  pathId : Nat → Nat

/-- Walk `next` from node i, collecting nodes until e is reached. -/
def chainFrom (next : Nat → Nat) : Nat → Nat → Nat → List Nat
  | 0, _, _ => []
  | fuel + 1, i, e => if i = e then [i] else i :: chainFrom next fuel (next i) e

/-- Modelled from the spec: `PathOperator::MoveChain(b, e, d)` -- the three
pointer writes and the path-id rewrite of the moved chain. -/
def moveChain (s : PathNextState) (b e d : Nat) : PathNextState :=
  let chain := chainFrom s.next s.n (s.next b) e
  ⟨s.n,
   fun i => if i = b then s.next e
     else if i = d then s.next b
     else if i = e then s.next d
     else s.next i,
   fun i => if i ∈ chain then s.pathId d else s.pathId i⟩

/-- A valid terminated path over the next-pointer array: duplicate-free
in-range nodes, each followed by its successor, the last node's successor
out of range (`IsPathEnd`). -/
def pathOk (next : Nat → Nat) (n : Nat) (L : List Nat) : Prop :=
  L.Nodup ∧ (∀ x ∈ L, x < n) ∧ List.Chain' (fun a c => next a = c) L ∧
  (L ≠ [] → n ≤ next (L.getLastD 0))

/-- Executable check for the successor chain (the Mathlib `Chain'`
decidability instance is tactic-defined and does not reduce in the
kernel). -/
def chainB (next : Nat → Nat) : List Nat → Bool
  | [] => true
  | [_] => true
  | a :: c :: rest => (next a == c) && chainB next (c :: rest)

theorem chainB_iff (next : Nat → Nat) (L : List Nat) :
    chainB next L = true ↔ List.Chain' (fun a c => next a = c) L := by
  induction L with
  | nil => simp [chainB]
  | cons a rest ih =>
    cases rest with
    | nil => simp [chainB]
    | cons c rs =>
      rw [List.chain'_cons, ← ih]
      show ((next a == c) && chainB next (c :: rs)) = true ↔ _
      rw [Bool.and_eq_true_iff, beq_iff_eq]

instance (next : Nat → Nat) (n : Nat) (L : List Nat) :
    Decidable (pathOk next n L) :=
  have : Decidable (List.Chain' (fun a c => next a = c) L) :=
    decidable_of_iff (chainB next L = true) (chainB_iff next L)
  inferInstanceAs (Decidable (L.Nodup ∧ (∀ x ∈ L, x < n) ∧
    List.Chain' (fun a c => next a = c) L ∧ (L ≠ [] → n ≤ next (L.getLastD 0))))

theorem getLastD_cons_irrel (r : Nat) (rs : List Nat) (x y : Nat) :
    (r :: rs).getLastD x = (r :: rs).getLastD y := by
  rw [List.getLastD_cons, List.getLastD_cons]

theorem getLastD_mem (l : List Nat) (h : l ≠ []) : l.getLastD 0 ∈ l := by
  induction l with
  | nil => exact absurd rfl h
  | cons a rest ih =>
    cases hr : rest with
    | nil => simp
    | cons r rs =>
      subst hr
      rw [List.getLastD_cons, getLastD_cons_irrel r rs a 0]
      exact List.mem_cons_of_mem a (ih (by simp))

theorem head?_append_left (X Y : List Nat) (h : X ≠ []) :
    (X ++ Y).head? = X.head? := by
  cases X with
  | nil => exact absurd rfl h
  | cons a rest => rfl

theorem headD_append_cons (M : List Nat) (d : Nat) (B : List Nat) :
    ((M ++ d :: B).headD 0) = M.headD d := by
  cases M with
  | nil => rfl
  | cons m rest => rfl

theorem getLast?_eq_getLastD (l : List Nat) (h : l ≠ []) :
    l.getLast? = some (l.getLastD 0) := by
  cases l with
  | nil => exact absurd rfl h
  | cons a rest =>
    rw [List.getLast?_eq_getLast (a :: rest) (by simp), List.getLastD_eq_getLast?,
        List.getLast?_eq_getLast (a :: rest) (by simp)]
    rfl

theorem head?_eq_headD (l : List Nat) (h : l ≠ []) :
    l.head? = some (l.headD 0) := by
  cases l with
  | nil => exact absurd rfl h
  | cons a rest => rfl

theorem getLastD_append_right (X Y : List Nat) (h : Y ≠ []) :
    (X ++ Y).getLastD 0 = Y.getLastD 0 := by
  rw [List.getLastD_eq_getLast?, List.getLast?_append, getLast?_eq_getLastD Y h]
  rfl

theorem chain'_congr (f g : Nat → Nat) (L : List Nat)
    (h : ∀ x ∈ L.dropLast, g x = f x)
    (hch : List.Chain' (fun a c => f a = c) L) :
    List.Chain' (fun a c => g a = c) L := by
  induction L with
  | nil => exact List.chain'_nil
  | cons a rest ih =>
    cases rest with
    | nil => exact List.chain'_singleton a
    | cons r rs =>
      rw [List.chain'_cons] at hch ⊢
      refine ⟨?_, ih (fun x hx => h x ?_) hch.2⟩
      · rw [h a (by simp), hch.1]
      · rw [List.dropLast_cons_of_ne_nil (by simp)]
        exact List.mem_cons_of_mem a hx

theorem chainFrom_spec (next : Nat → Nat) (C : List Nat) (hC : C ≠ [])
    (hnd : C.Nodup) (hch : List.Chain' (fun a c => next a = c) C) :
    ∀ fuel, C.length ≤ fuel →
      chainFrom next fuel (C.headD 0) (C.getLastD 0) = C := by
  induction C with
  | nil => exact absurd rfl hC
  | cons a rest ih =>
    intro fuel hfuel
    obtain ⟨f, rfl⟩ : ∃ f, fuel = f + 1 := ⟨fuel - 1, by simp at hfuel; omega⟩
    cases hr : rest with
    | nil =>
      show chainFrom next (f + 1) a a = [a]
      unfold chainFrom
      rw [if_pos rfl]
    | cons r rs =>
      subst hr
      have hlast : (a :: r :: rs).getLastD 0 = (r :: rs).getLastD 0 := by
        rw [List.getLastD_cons]
        exact getLastD_cons_irrel r rs a 0
      have hane : a ≠ (r :: rs).getLastD 0 := by
        intro hcontra
        have hmem : (r :: rs).getLastD 0 ∈ r :: rs := getLastD_mem _ (by simp)
        rw [← hcontra] at hmem
        exact (List.nodup_cons.mp hnd).1 hmem
      show chainFrom next (f + 1) a ((a :: r :: rs).getLastD 0) = a :: r :: rs
      unfold chainFrom
      rw [hlast, if_neg hane]
      have hnexta : next a = r := (List.chain'_cons.mp hch).1
      rw [hnexta]
      have hrec := ih (by simp) (List.nodup_cons.mp hnd).2 (List.chain'_cons.mp hch).2
        f (by simp at hfuel ⊢; omega)
      rw [show (r :: rs).headD 0 = r from rfl] at hrec
      rw [hrec]

theorem nodup_length_le (C : List Nat) (n : Nat) (hnd : C.Nodup)
    (hlt : ∀ x ∈ C, x < n) : C.length ≤ n := by
  have hsub : C.toFinset ⊆ Finset.range n := by
    intro x hx
    rw [List.mem_toFinset] at hx
    rw [Finset.mem_range]
    exact hlt x hx
  have hcard := Finset.card_le_card hsub
  rw [List.toFinset_card_of_nodup hnd, Finset.card_range] at hcard
  exact hcard

theorem getLastD_irrel (l : List Nat) (h : l ≠ []) (x y : Nat) :
    l.getLastD x = l.getLastD y := by
  cases l with
  | nil => exact absurd rfl h
  | cons r rs => exact getLastD_cons_irrel r rs x y

/-- Splicing a chain forward: if the path decomposes as
`A ++ b :: C ++ M ++ d :: B` (destination after the chain), `MoveChain`
yields the valid path `A ++ b :: M ++ d :: C ++ B`; pointers outside
`C ∪ {b, d}` and path ids outside `C` are untouched, and the chain takes
destination's path id. -/
theorem moveChain_after (s : PathNextState) (A C M B : List Nat) (b d : Nat)
    (hC : C ≠ [])
    (hpath : pathOk s.next s.n (A ++ b :: (C ++ (M ++ d :: B)))) :
    pathOk (moveChain s b (C.getLastD 0) d).next s.n
      (A ++ b :: (M ++ d :: (C ++ B))) ∧
    chainFrom s.next s.n (s.next b) (C.getLastD 0) = C ∧
    (∀ i, i ∉ C → i ≠ b → i ≠ d →
      (moveChain s b (C.getLastD 0) d).next i = s.next i) ∧
    (∀ i, i ∉ C → (moveChain s b (C.getLastD 0) d).pathId i = s.pathId i) ∧
    (∀ i ∈ C, (moveChain s b (C.getLastD 0) d).pathId i = s.pathId d) := by
  obtain ⟨hnd, hlt, hch, hlast⟩ := hpath
  set e := C.getLastD 0 with he
  have heC : e ∈ C := getLastD_mem C hC
  -- nodup separations
  have h1 := List.nodup_append.mp hnd
  have hndA : A.Nodup := h1.1
  have hdisjA : ∀ x ∈ A, x ∉ b :: (C ++ (M ++ d :: B)) :=
    fun x hx hmem => h1.2.2 hx hmem
  have h2 := List.nodup_cons.mp h1.2.1
  have hbNot : b ∉ C ++ (M ++ d :: B) := h2.1
  have h3 := List.nodup_append.mp h2.2
  have hndC : C.Nodup := h3.1
  have hdisjC : ∀ x ∈ C, x ∉ M ++ d :: B := fun x hx hmem => h3.2.2 hx hmem
  have h4 := List.nodup_append.mp h3.2.1
  have hndM : M.Nodup := h4.1
  have hdisjM : ∀ x ∈ M, x ∉ d :: B := fun x hx hmem => h4.2.2 hx hmem
  have h5 := List.nodup_cons.mp h4.2.1
  have hdNotB : d ∉ B := h5.1
  have hndB : B.Nodup := h5.2
  -- distinctness of the three rewritten pointers
  have hbC : b ∉ C := fun hx => hbNot (List.mem_append_left _ hx)
  have hbd : b ≠ d := fun hx => hbNot (by
    rw [hx]
    exact List.mem_append_right _ (List.mem_append_right _ (List.mem_cons_self d B)))
  have hdC : d ∉ C := fun hx =>
    hdisjC d hx (List.mem_append_right _ (List.mem_cons_self d B))
  have hbe : b ≠ e := fun hx => hbC (hx ▸ heC)
  have hde : d ≠ e := fun hx => hdC (hx ▸ heC)
  -- evaluation of the rewritten next function
  have hnb : (moveChain s b e d).next b = s.next e := by
    show (if b = b then s.next e else _) = s.next e
    rw [if_pos rfl]
  have hndd : (moveChain s b e d).next d = s.next b := by
    show (if d = b then _ else if d = d then s.next b else _) = s.next b
    rw [if_neg (Ne.symm hbd), if_pos rfl]
  have hnee : (moveChain s b e d).next e = s.next d := by
    show (if e = b then _ else if e = d then _ else if e = e then s.next d else _)
        = s.next d
    rw [if_neg (Ne.symm hbe), if_neg (Ne.symm hde), if_pos rfl]
  have hother : ∀ i, i ≠ b → i ≠ d → i ≠ e →
      (moveChain s b e d).next i = s.next i := by
    intro i hib hid hie
    show (if i = b then _ else if i = d then _ else if i = e then _ else s.next i)
        = s.next i
    rw [if_neg hib, if_neg hid, if_neg hie]
  -- chain decomposition of the original path
  have hsplit1 := List.chain'_append.mp hch
  have hchA := hsplit1.1
  have hbndA := hsplit1.2.2
  have hsplit2 := List.chain'_cons'.mp hsplit1.2.1
  have hbndB1 := hsplit2.1
  have hsplit3 := List.chain'_append.mp hsplit2.2
  have hchC := hsplit3.1
  have hbndCE := hsplit3.2.2
  have hsplit4 := List.chain'_append.mp hsplit3.2.1
  have hchM := hsplit4.1
  have hbndMd := hsplit4.2.2
  have hsplit5 := List.chain'_cons'.mp hsplit4.2.1
  have hbnddB := hsplit5.1
  have hchB := hsplit5.2
  -- successor facts at the segment boundaries
  have hnextb : s.next b = C.headD 0 := by
    apply hbndB1
    rw [head?_append_left C _ hC, head?_eq_headD C hC]
    rfl
  have hnexte : s.next e = M.headD d := by
    have hx : e ∈ C.getLast? := by rw [getLast?_eq_getLastD C hC]; rfl
    have hy : M.headD d ∈ (M ++ d :: B).head? := by
      rw [head?_eq_headD _ (by simp), headD_append_cons]
      rfl
    exact hbndCE e hx _ hy
  have hnextd : B ≠ [] → s.next d = B.headD 0 := fun hB =>
    hbnddB _ (by rw [head?_eq_headD B hB]; rfl)
  have hnextM : M ≠ [] → s.next (M.getLastD 0) = d := fun hM =>
    hbndMd _ (by rw [getLast?_eq_getLastD M hM]; rfl) d rfl
  have hnextA : A ≠ [] → s.next (A.getLastD 0) = b := fun hA =>
    hbndA _ (by rw [getLast?_eq_getLastD A hA]; rfl) b rfl
  -- the last node of the original path
  have hlastfact := hlast (by simp)
  have hbig : (A ++ b :: (C ++ (M ++ d :: B))).getLastD 0
      = (M ++ d :: B).getLastD 0 := by
    rw [getLastD_append_right A _ (by simp), List.getLastD_cons,
        getLastD_irrel _ (by simp) b 0, getLastD_append_right C _ (by simp)]
  rw [hbig] at hlastfact
  -- element classification for the untouched pointers
  have hAx : ∀ x ∈ A, x ≠ b ∧ x ≠ d ∧ x ≠ e := by
    intro x hx
    have hnot := hdisjA x hx
    refine ⟨?_, ?_, ?_⟩
    · intro hxe
      exact hnot (by rw [hxe]; exact List.mem_cons_self b _)
    · intro hxe
      apply hnot
      rw [hxe]
      exact List.mem_cons_of_mem b
        (List.mem_append_right C (List.mem_append_right M (List.mem_cons_self d B)))
    · intro hxe
      exact hnot (by rw [hxe]; exact List.mem_cons_of_mem b (List.mem_append_left _ heC))
  have hMx : ∀ x ∈ M, x ≠ b ∧ x ≠ d ∧ x ≠ e := by
    intro x hx
    refine ⟨?_, ?_, ?_⟩
    · intro hxe
      rw [hxe] at hx
      exact hbNot (List.mem_append_right C (List.mem_append_left _ hx))
    · intro hxe
      rw [hxe] at hx
      exact hdisjM d hx (List.mem_cons_self d B)
    · intro hxe
      rw [hxe] at hx
      exact hdisjC e heC (List.mem_append_left _ hx)
  have hBx : ∀ x ∈ B, x ≠ b ∧ x ≠ d ∧ x ≠ e := by
    intro x hx
    refine ⟨?_, ?_, ?_⟩
    · intro hxe
      rw [hxe] at hx
      exact hbNot (List.mem_append_right C
        (List.mem_append_right M (List.mem_cons_of_mem d hx)))
    · intro hxe
      rw [hxe] at hx
      exact hdNotB hx
    · intro hxe
      rw [hxe] at hx
      exact hdisjC e heC (List.mem_append_right M (List.mem_cons_of_mem d hx))
  have hCx : ∀ x ∈ C.dropLast, x ≠ b ∧ x ≠ d ∧ x ≠ e := by
    intro x hx
    have hxC : x ∈ C := List.dropLast_subset C hx
    refine ⟨?_, ?_, ?_⟩
    · intro hxe; subst hxe; exact hbC hxC
    · intro hxe; subst hxe; exact hdC hxC
    · intro hxe
      have hCeq : C.dropLast ++ [C.getLast hC] = C := List.dropLast_append_getLast hC
      have hgl : C.getLast hC = e := by
        rw [he, List.getLastD_eq_getLast?, List.getLast?_eq_getLast C hC]
        rfl
      have hnd2 := hCeq ▸ hndC
      have h6 := List.nodup_append.mp hnd2
      exact h6.2.2 hx (by rw [hgl, ← hxe]; exact List.mem_singleton.mpr rfl)
  -- chain segments under the rewritten next function
  have hchA' := chain'_congr s.next (moveChain s b e d).next A
    (fun x hx => by
      have h := hAx x (List.dropLast_subset A hx)
      exact hother x h.1 h.2.1 h.2.2) hchA
  have hchM' := chain'_congr s.next (moveChain s b e d).next M
    (fun x hx => by
      have h := hMx x (List.dropLast_subset M hx)
      exact hother x h.1 h.2.1 h.2.2) hchM
  have hchB' := chain'_congr s.next (moveChain s b e d).next B
    (fun x hx => by
      have h := hBx x (List.dropLast_subset B hx)
      exact hother x h.1 h.2.1 h.2.2) hchB
  have hchC' := chain'_congr s.next (moveChain s b e d).next C
    (fun x hx => by
      have h := hCx x hx
      exact hother x h.1 h.2.1 h.2.2) hchC
  -- the chain of the rearranged path
  have hchain' : List.Chain' (fun a c => (moveChain s b e d).next a = c)
      (A ++ b :: (M ++ d :: (C ++ B))) := by
    apply List.chain'_append.mpr
    refine ⟨hchA', ?_, ?_⟩
    · apply List.chain'_cons'.mpr
      constructor
      · intro y hy
        rw [head?_eq_headD _ (by simp), headD_append_cons] at hy
        rw [Option.mem_def, Option.some_inj] at hy
        subst hy
        rw [hnb, hnexte]
      · apply List.chain'_append.mpr
        refine ⟨hchM', ?_, ?_⟩
        · apply List.chain'_cons'.mpr
          constructor
          · intro y hy
            rw [head?_append_left C B hC, head?_eq_headD C hC,
                Option.mem_def, Option.some_inj] at hy
            subst hy
            rw [hndd, hnextb]
          · apply List.chain'_append.mpr
            refine ⟨hchC', hchB', ?_⟩
            intro x hx y hy
            rw [getLast?_eq_getLastD C hC, Option.mem_def, Option.some_inj] at hx
            subst hx
            have hBne : B ≠ [] := by
              intro hBnil
              rw [hBnil] at hy
              cases hy
            rw [head?_eq_headD B hBne, Option.mem_def, Option.some_inj] at hy
            subst hy
            rw [← he, hnee, hnextd hBne]
        · intro x hx y hy
          rw [Option.mem_def] at hy
          rw [show (d :: (C ++ B)).head? = some d from rfl, Option.some_inj] at hy
          subst hy
          have hMne : M ≠ [] := by
            intro hMnil
            rw [hMnil] at hx
            cases hx
          rw [getLast?_eq_getLastD M hMne, Option.mem_def, Option.some_inj] at hx
          subst hx
          have h := hMx _ (getLastD_mem M hMne)
          rw [hother _ h.1 h.2.1 h.2.2, hnextM hMne]
    · intro x hx y hy
      rw [show (b :: (M ++ d :: (C ++ B))).head? = some b from rfl,
          Option.mem_def, Option.some_inj] at hy
      subst hy
      have hAne : A ≠ [] := by
        intro hAnil
        rw [hAnil] at hx
        cases hx
      rw [getLast?_eq_getLastD A hAne, Option.mem_def, Option.some_inj] at hx
      subst hx
      have h := hAx _ (getLastD_mem A hAne)
      rw [hother _ h.1 h.2.1 h.2.2, hnextA hAne]
  -- permutation with the original path
  have hperm : (A ++ b :: (M ++ d :: (C ++ B))).Perm
      (A ++ b :: (C ++ (M ++ d :: B))) := by
    apply List.Perm.append_left A
    apply List.Perm.cons b
    have e1 : M ++ d :: (C ++ B) = ((M ++ [d]) ++ C) ++ B := by simp
    have e2 : C ++ (M ++ d :: B) = (C ++ (M ++ [d])) ++ B := by simp
    rw [e1, e2]
    exact List.Perm.append_right B List.perm_append_comm
  -- the chain recovered by the fuel walk is C
  have hfuel : C.length ≤ s.n :=
    nodup_length_le C s.n hndC (fun x hx => hlt x
      (List.mem_append_right A (List.mem_cons_of_mem b (List.mem_append_left _ hx))))
  have hchainEq : chainFrom s.next s.n (s.next b) e = C := by
    rw [hnextb, he]
    exact chainFrom_spec s.next C hC hndC hchC s.n hfuel
  have hpid : ∀ i, (moveChain s b e d).pathId i
      = if i ∈ C then s.pathId d else s.pathId i := by
    intro i
    show (if i ∈ chainFrom s.next s.n (s.next b) e then s.pathId d else s.pathId i)
        = _
    rw [hchainEq]
  -- assemble
  refine ⟨⟨hperm.nodup_iff.mpr hnd, ?_, hchain', ?_⟩, hchainEq, ?_, ?_, ?_⟩
  · intro x hx
    exact hlt x (hperm.mem_iff.mp hx)
  · intro _
    rcases eq_or_ne B [] with hBcase | hBne
    · have hlv : (A ++ b :: (M ++ d :: (C ++ B))).getLastD 0 = e := by
        rw [hBcase, List.append_nil, getLastD_append_right A _ (by simp),
            List.getLastD_cons, getLastD_irrel _ (by simp) b 0,
            getLastD_append_right M _ (by simp), List.getLastD_cons,
            getLastD_irrel C hC d 0, he]
      rw [hlv, hnee]
      have hlv2 : (M ++ d :: B).getLastD 0 = d := by
        rw [hBcase, getLastD_append_right M _ (by simp)]
        rfl
      rw [hlv2] at hlastfact
      exact hlastfact
    · have hCBne : C ++ B ≠ [] := fun hcontra => hC (List.append_eq_nil.mp hcontra).1
      have hlv : (A ++ b :: (M ++ d :: (C ++ B))).getLastD 0 = B.getLastD 0 := by
        rw [getLastD_append_right A _ (by simp), List.getLastD_cons,
            getLastD_irrel _ (by simp) b 0,
            getLastD_append_right M _ (by simp), List.getLastD_cons,
            getLastD_irrel _ hCBne d 0,
            getLastD_append_right C B hBne]
      have hlv2 : (M ++ d :: B).getLastD 0 = B.getLastD 0 := by
        rw [getLastD_append_right M _ (by simp), List.getLastD_cons,
            getLastD_irrel B hBne d 0]
      rw [hlv2] at hlastfact
      rw [hlv]
      have h := hBx _ (getLastD_mem B hBne)
      rw [hother _ h.1 h.2.1 h.2.2]
      exact hlastfact
  · intro i hiC hib hid
    exact hother i hib hid (fun hie => hiC (hie ▸ heC))
  · intro i hiC
    rw [hpid i, if_neg hiC]
  · intro i hiC
    rw [hpid i, if_pos hiC]

/-- Splicing a chain backward: if the path decomposes as
`A1 ++ d :: A2 ++ b :: C ++ Q` (destination before the chain), `MoveChain`
yields the valid path `A1 ++ d :: C ++ A2 ++ b :: Q`; pointers outside
`C ∪ {b, d}` and path ids outside `C` are untouched, and the chain takes
destination's path id. -/
theorem moveChain_before (s : PathNextState) (A1 A2 C Q : List Nat) (b d : Nat)
    (hC : C ≠ [])
    (hpath : pathOk s.next s.n (A1 ++ d :: (A2 ++ b :: (C ++ Q)))) :
    pathOk (moveChain s b (C.getLastD 0) d).next s.n
      (A1 ++ d :: (C ++ (A2 ++ b :: Q))) ∧
    chainFrom s.next s.n (s.next b) (C.getLastD 0) = C ∧
    (∀ i, i ∉ C → i ≠ b → i ≠ d →
      (moveChain s b (C.getLastD 0) d).next i = s.next i) ∧
    (∀ i, i ∉ C → (moveChain s b (C.getLastD 0) d).pathId i = s.pathId i) ∧
    (∀ i ∈ C, (moveChain s b (C.getLastD 0) d).pathId i = s.pathId d) := by
  obtain ⟨hnd, hlt, hch, hlast⟩ := hpath
  set e := C.getLastD 0 with he
  have heC : e ∈ C := getLastD_mem C hC
  -- nodup separations
  have h1 := List.nodup_append.mp hnd
  have hndA1 : A1.Nodup := h1.1
  have hdisjA1 : ∀ x ∈ A1, x ∉ d :: (A2 ++ b :: (C ++ Q)) :=
    fun x hx hmem => h1.2.2 hx hmem
  have h2 := List.nodup_cons.mp h1.2.1
  have hdNot : d ∉ A2 ++ b :: (C ++ Q) := h2.1
  have h3 := List.nodup_append.mp h2.2
  have hndA2 : A2.Nodup := h3.1
  have hdisjA2 : ∀ x ∈ A2, x ∉ b :: (C ++ Q) := fun x hx hmem => h3.2.2 hx hmem
  have h4 := List.nodup_cons.mp h3.2.1
  have hbNot : b ∉ C ++ Q := h4.1
  have h5 := List.nodup_append.mp h4.2
  have hndC : C.Nodup := h5.1
  have hdisjC : ∀ x ∈ C, x ∉ Q := fun x hx hmem => h5.2.2 hx hmem
  have hndQ : Q.Nodup := h5.2.1
  -- distinctness of the three rewritten pointers
  have hbC : b ∉ C := fun hx => hbNot (List.mem_append_left _ hx)
  have hbd : b ≠ d := fun hx =>
    hdNot (by rw [← hx]; exact List.mem_append_right A2 (List.mem_cons_self b _))
  have hdC : d ∉ C := fun hx =>
    hdNot (List.mem_append_right A2 (List.mem_cons_of_mem b (List.mem_append_left _ hx)))
  have hbe : b ≠ e := fun hx => hbC (hx ▸ heC)
  have hde : d ≠ e := fun hx => hdC (hx ▸ heC)
  -- evaluation of the rewritten next function
  have hnb : (moveChain s b e d).next b = s.next e := by
    show (if b = b then s.next e else _) = s.next e
    rw [if_pos rfl]
  have hndd : (moveChain s b e d).next d = s.next b := by
    show (if d = b then _ else if d = d then s.next b else _) = s.next b
    rw [if_neg (Ne.symm hbd), if_pos rfl]
  have hnee : (moveChain s b e d).next e = s.next d := by
    show (if e = b then _ else if e = d then _ else if e = e then s.next d else _)
        = s.next d
    rw [if_neg (Ne.symm hbe), if_neg (Ne.symm hde), if_pos rfl]
  have hother : ∀ i, i ≠ b → i ≠ d → i ≠ e →
      (moveChain s b e d).next i = s.next i := by
    intro i hib hid hie
    show (if i = b then _ else if i = d then _ else if i = e then _ else s.next i)
        = s.next i
    rw [if_neg hib, if_neg hid, if_neg hie]
  -- chain decomposition of the original path
  have hsplit1 := List.chain'_append.mp hch
  have hchA1 := hsplit1.1
  have hbndA1 := hsplit1.2.2
  have hsplit2 := List.chain'_cons'.mp hsplit1.2.1
  have hbndD := hsplit2.1
  have hsplit3 := List.chain'_append.mp hsplit2.2
  have hchA2 := hsplit3.1
  have hbndA2 := hsplit3.2.2
  have hsplit4 := List.chain'_cons'.mp hsplit3.2.1
  have hbndB := hsplit4.1
  have hsplit5 := List.chain'_append.mp hsplit4.2
  have hchC := hsplit5.1
  have hchQ := hsplit5.2.1
  have hbndCQ := hsplit5.2.2
  -- successor facts at the segment boundaries
  have hnextd : s.next d = A2.headD b := by
    apply hbndD
    rw [head?_eq_headD _ (by simp), headD_append_cons]
    rfl
  have hnextb : s.next b = C.headD 0 := by
    apply hbndB
    rw [head?_append_left C Q hC, head?_eq_headD C hC]
    rfl
  have hnexte : Q ≠ [] → s.next e = Q.headD 0 := fun hQ => by
    have hx : e ∈ C.getLast? := by rw [getLast?_eq_getLastD C hC]; rfl
    exact hbndCQ e hx _ (by rw [head?_eq_headD Q hQ]; rfl)
  have hnextA2 : A2 ≠ [] → s.next (A2.getLastD 0) = b := fun hA => by
    apply hbndA2 _ (by rw [getLast?_eq_getLastD A2 hA]; rfl)
    rfl
  have hnextA1 : A1 ≠ [] → s.next (A1.getLastD 0) = d := fun hA => by
    apply hbndA1 _ (by rw [getLast?_eq_getLastD A1 hA]; rfl)
    rfl
  -- the last node of the original path
  have hlastfact := hlast (by simp)
  have hbig : (A1 ++ d :: (A2 ++ b :: (C ++ Q))).getLastD 0
      = (C ++ Q).getLastD 0 := by
    rw [getLastD_append_right A1 _ (by simp), List.getLastD_cons,
        getLastD_irrel _ (by simp) d 0, getLastD_append_right A2 _ (by simp),
        List.getLastD_cons,
        getLastD_irrel _ (fun hcontra => hC (List.append_eq_nil.mp hcontra).1) b 0]
  rw [hbig] at hlastfact
  -- element classification for the untouched pointers
  have hA1x : ∀ x ∈ A1, x ≠ b ∧ x ≠ d ∧ x ≠ e := by
    intro x hx
    have hnot := hdisjA1 x hx
    refine ⟨?_, ?_, ?_⟩
    · intro hxe
      apply hnot
      rw [hxe]
      exact List.mem_cons_of_mem d (List.mem_append_right A2 (List.mem_cons_self b _))
    · intro hxe
      apply hnot
      rw [hxe]
      exact List.mem_cons_self d _
    · intro hxe
      apply hnot
      rw [hxe]
      exact List.mem_cons_of_mem d (List.mem_append_right A2
        (List.mem_cons_of_mem b (List.mem_append_left _ heC)))
  have hA2x : ∀ x ∈ A2, x ≠ b ∧ x ≠ d ∧ x ≠ e := by
    intro x hx
    have hnot := hdisjA2 x hx
    refine ⟨?_, ?_, ?_⟩
    · intro hxe
      exact hnot (by rw [hxe]; exact List.mem_cons_self b _)
    · intro hxe
      rw [hxe] at hx
      exact hdNot (List.mem_append_left (b :: (C ++ Q)) hx)
    · intro hxe
      apply hnot
      rw [hxe]
      exact List.mem_cons_of_mem b (List.mem_append_left _ heC)
  have hQx : ∀ x ∈ Q, x ≠ b ∧ x ≠ d ∧ x ≠ e := by
    intro x hx
    refine ⟨?_, ?_, ?_⟩
    · intro hxe
      rw [hxe] at hx
      exact hbNot (List.mem_append_right C hx)
    · intro hxe
      rw [hxe] at hx
      exact hdNot (List.mem_append_right A2
        (List.mem_cons_of_mem b (List.mem_append_right C hx)))
    · intro hxe
      rw [hxe] at hx
      exact hdisjC e heC hx
  have hCx : ∀ x ∈ C.dropLast, x ≠ b ∧ x ≠ d ∧ x ≠ e := by
    intro x hx
    have hxC : x ∈ C := List.dropLast_subset C hx
    refine ⟨?_, ?_, ?_⟩
    · intro hxe; rw [hxe] at hxC; exact hbC hxC
    · intro hxe; rw [hxe] at hxC; exact hdC hxC
    · intro hxe
      have hCeq : C.dropLast ++ [C.getLast hC] = C := List.dropLast_append_getLast hC
      have hgl : C.getLast hC = e := by
        rw [he, List.getLastD_eq_getLast?, List.getLast?_eq_getLast C hC]
        rfl
      have hnd2 := hCeq ▸ hndC
      have h6 := List.nodup_append.mp hnd2
      exact h6.2.2 hx (by rw [hgl, ← hxe]; exact List.mem_singleton.mpr rfl)
  -- chain segments under the rewritten next function
  have hchA1' := chain'_congr s.next (moveChain s b e d).next A1
    (fun x hx => by
      have h := hA1x x (List.dropLast_subset A1 hx)
      exact hother x h.1 h.2.1 h.2.2) hchA1
  have hchA2' := chain'_congr s.next (moveChain s b e d).next A2
    (fun x hx => by
      have h := hA2x x (List.dropLast_subset A2 hx)
      exact hother x h.1 h.2.1 h.2.2) hchA2
  have hchQ' := chain'_congr s.next (moveChain s b e d).next Q
    (fun x hx => by
      have h := hQx x (List.dropLast_subset Q hx)
      exact hother x h.1 h.2.1 h.2.2) hchQ
  have hchC' := chain'_congr s.next (moveChain s b e d).next C
    (fun x hx => by
      have h := hCx x hx
      exact hother x h.1 h.2.1 h.2.2) hchC
  -- the chain of the rearranged path
  have hchain' : List.Chain' (fun a c => (moveChain s b e d).next a = c)
      (A1 ++ d :: (C ++ (A2 ++ b :: Q))) := by
    apply List.chain'_append.mpr
    refine ⟨hchA1', ?_, ?_⟩
    · apply List.chain'_cons'.mpr
      constructor
      · intro y hy
        rw [head?_append_left C _ hC, head?_eq_headD C hC,
            Option.mem_def, Option.some_inj] at hy
        subst hy
        rw [hndd, hnextb]
      · apply List.chain'_append.mpr
        refine ⟨hchC', ?_, ?_⟩
        · apply List.chain'_append.mpr
          refine ⟨hchA2', ?_, ?_⟩
          · apply List.chain'_cons'.mpr
            constructor
            · intro y hy
              have hQne : Q ≠ [] := by
                intro hQnil
                rw [hQnil] at hy
                cases hy
              rw [head?_eq_headD Q hQne, Option.mem_def, Option.some_inj] at hy
              subst hy
              rw [hnb, hnexte hQne]
            · exact hchQ'
          · intro x hx y hy
            rw [show (b :: Q).head? = some b from rfl,
                Option.mem_def, Option.some_inj] at hy
            subst hy
            have hA2ne : A2 ≠ [] := by
              intro hA2nil
              rw [hA2nil] at hx
              cases hx
            rw [getLast?_eq_getLastD A2 hA2ne, Option.mem_def, Option.some_inj] at hx
            subst hx
            have h := hA2x _ (getLastD_mem A2 hA2ne)
            rw [hother _ h.1 h.2.1 h.2.2, hnextA2 hA2ne]
        · intro x hx y hy
          rw [getLast?_eq_getLastD C hC, Option.mem_def, Option.some_inj] at hx
          subst hx
          rw [head?_eq_headD _ (by simp), headD_append_cons,
              Option.mem_def, Option.some_inj] at hy
          subst hy
          rw [← he, hnee, hnextd]
    · intro x hx y hy
      rw [show (d :: (C ++ (A2 ++ b :: Q))).head? = some d from rfl,
          Option.mem_def, Option.some_inj] at hy
      subst hy
      have hA1ne : A1 ≠ [] := by
        intro hA1nil
        rw [hA1nil] at hx
        cases hx
      rw [getLast?_eq_getLastD A1 hA1ne, Option.mem_def, Option.some_inj] at hx
      subst hx
      have h := hA1x _ (getLastD_mem A1 hA1ne)
      rw [hother _ h.1 h.2.1 h.2.2, hnextA1 hA1ne]
  -- permutation with the original path
  have hperm : (A1 ++ d :: (C ++ (A2 ++ b :: Q))).Perm
      (A1 ++ d :: (A2 ++ b :: (C ++ Q))) := by
    apply List.Perm.append_left A1
    apply List.Perm.cons d
    have e1 : C ++ (A2 ++ b :: Q) = (C ++ (A2 ++ [b])) ++ Q := by simp
    have e2 : A2 ++ b :: (C ++ Q) = ((A2 ++ [b]) ++ C) ++ Q := by simp
    rw [e1, e2]
    exact List.Perm.append_right Q List.perm_append_comm
  -- the chain recovered by the fuel walk is C
  have hfuel : C.length ≤ s.n :=
    nodup_length_le C s.n hndC (fun x hx => hlt x
      (List.mem_append_right A1 (List.mem_cons_of_mem d
        (List.mem_append_right A2 (List.mem_cons_of_mem b (List.mem_append_left _ hx))))))
  have hchainEq : chainFrom s.next s.n (s.next b) e = C := by
    rw [hnextb, he]
    exact chainFrom_spec s.next C hC hndC hchC s.n hfuel
  have hpid : ∀ i, (moveChain s b e d).pathId i
      = if i ∈ C then s.pathId d else s.pathId i := by
    intro i
    show (if i ∈ chainFrom s.next s.n (s.next b) e then s.pathId d else s.pathId i)
        = _
    rw [hchainEq]
  -- assemble
  refine ⟨⟨hperm.nodup_iff.mpr hnd, ?_, hchain', ?_⟩, hchainEq, ?_, ?_, ?_⟩
  · intro x hx
    exact hlt x (hperm.mem_iff.mp hx)
  · intro _
    rcases eq_or_ne Q [] with hQcase | hQne
    · have hlv : (A1 ++ d :: (C ++ (A2 ++ b :: Q))).getLastD 0 = b := by
        rw [hQcase, getLastD_append_right A1 _ (by simp), List.getLastD_cons,
            getLastD_irrel _ (fun hcontra => hC (List.append_eq_nil.mp hcontra).1) d 0,
            getLastD_append_right C _ (by simp),
            getLastD_append_right A2 _ (by simp)]
        rfl
      rw [hlv, hnb]
      have hlv2 : (C ++ Q).getLastD 0 = e := by
        rw [hQcase, List.append_nil, he]
      rw [hlv2] at hlastfact
      exact hlastfact
    · have hlv : (A1 ++ d :: (C ++ (A2 ++ b :: Q))).getLastD 0 = Q.getLastD 0 := by
        rw [getLastD_append_right A1 _ (by simp), List.getLastD_cons,
            getLastD_irrel _ (fun hcontra => hC (List.append_eq_nil.mp hcontra).1) d 0,
            getLastD_append_right C _ (by simp),
            getLastD_append_right A2 _ (by simp), List.getLastD_cons,
            getLastD_irrel Q hQne b 0]
      have hlv2 : (C ++ Q).getLastD 0 = Q.getLastD 0 := getLastD_append_right C Q hQne
      rw [hlv2] at hlastfact
      rw [hlv]
      have h := hQx _ (getLastD_mem Q hQne)
      rw [hother _ h.1 h.2.1 h.2.2]
      exact hlastfact
  · intro i hiC hib hid
    exact hother i hib hid (fun hie => hiC (hie ▸ heC))
  · intro i hiC
    rw [hpid i, if_neg hiC]
  · intro i hiC
    rw [hpid i, if_pos hiC]

/-- C3 counterexample: on the path 0→1→2→3→4→end (n = 5),
`MoveChain(before_chain = 0, chain_end = 2, destination = 3)` changes the
successor of node 0 -- a node outside the moved chain (1 .. 2) -- from 1
to 3 (and that of node 3 from 4 to 1), refuting the claim's clause that
every node outside the moved chain keeps its successor. -/
theorem claim_C3_counterexample :
    chainFrom (fun i => i + 1) 5 ((fun i : Nat => i + 1) 0) 2 = [1, 2] ∧
    (0 ∉ chainFrom (fun i => i + 1) 5 ((fun i : Nat => i + 1) 0) 2) ∧
    (moveChain ⟨5, fun i => i + 1, fun _ => 0⟩ 0 2 3).next 0 = 3 ∧
    (PathNextState.mk 5 (fun i => i + 1) (fun _ => 0)).next 0 = 1 ∧
    (3 ∉ chainFrom (fun i => i + 1) 5 ((fun i : Nat => i + 1) 0) 2) ∧
    (moveChain ⟨5, fun i => i + 1, fun _ => 0⟩ 0 2 3).next 3 = 1 ∧
    (PathNextState.mk 5 (fun i => i + 1) (fun _ => 0)).next 3 = 4 := by
  decide

/-- C3 (amended): for every path state in which the chain
`Next(before_chain) .. chain_end` is contiguous and non-empty and the
destination lies on the path outside the chain -- after it (first
implication) or before `before_chain` (second implication) --
`MoveChain(before_chain, chain_end, destination)` splices the chain after
the destination: the resulting successor sequence is a valid path on which
no node appears twice; every node outside the moved chain other than
`before_chain` and `destination` keeps its successor; every node outside
the moved chain keeps its path id (and the chain takes destination's path
id); and on the path 0→1→2→3→4→end, MoveChain(0, 2, 3) yields
0→3→1→2→4→end. -/
theorem claim_C3_moveChain_spliced (s : PathNextState)
    (A C M B A1 A2 Q : List Nat) (b d : Nat) (hC : C ≠ []) :
    ((pathOk s.next s.n (A ++ b :: (C ++ (M ++ d :: B))) →
      pathOk (moveChain s b (C.getLastD 0) d).next s.n
          (A ++ b :: (M ++ d :: (C ++ B))) ∧
      (∀ i, i ∉ C → i ≠ b → i ≠ d →
        (moveChain s b (C.getLastD 0) d).next i = s.next i) ∧
      (∀ i, i ∉ C → (moveChain s b (C.getLastD 0) d).pathId i = s.pathId i) ∧
      (∀ i ∈ C, (moveChain s b (C.getLastD 0) d).pathId i = s.pathId d))) ∧
    ((pathOk s.next s.n (A1 ++ d :: (A2 ++ b :: (C ++ Q))) →
      pathOk (moveChain s b (C.getLastD 0) d).next s.n
          (A1 ++ d :: (C ++ (A2 ++ b :: Q))) ∧
      (∀ i, i ∉ C → i ≠ b → i ≠ d →
        (moveChain s b (C.getLastD 0) d).next i = s.next i) ∧
      (∀ i, i ∉ C → (moveChain s b (C.getLastD 0) d).pathId i = s.pathId i) ∧
      (∀ i ∈ C, (moveChain s b (C.getLastD 0) d).pathId i = s.pathId d))) ∧
    pathOk (moveChain ⟨5, fun i => i + 1, fun _ => 0⟩ 0 2 3).next 5 [0, 3, 1, 2, 4] ∧
    (moveChain ⟨5, fun i => i + 1, fun _ => 0⟩ 0 2 3).next 0 = 3 ∧
    (moveChain ⟨5, fun i => i + 1, fun _ => 0⟩ 0 2 3).next 3 = 1 ∧
    (moveChain ⟨5, fun i => i + 1, fun _ => 0⟩ 0 2 3).next 2 = 4 ∧
    (moveChain ⟨5, fun i => i + 1, fun _ => 0⟩ 0 2 3).next 1 = 2 ∧
    (moveChain ⟨5, fun i => i + 1, fun _ => 0⟩ 0 2 3).next 4 = 5 := by
  refine ⟨?_, ?_, by decide, by decide, by decide, by decide, by decide, by decide⟩
  · intro hpath
    have h := moveChain_after s A C M B b d hC hpath
    exact ⟨h.1, h.2.2.1, h.2.2.2.1, h.2.2.2.2⟩
  · intro hpath
    have h := moveChain_before s A1 A2 C Q b d hC hpath
    exact ⟨h.1, h.2.2.1, h.2.2.2.1, h.2.2.2.2⟩

theorem claim_C3_witness :
    pathOk (moveChain ⟨5, fun i => i + 1, fun _ => 0⟩ 0 2 3).next 5
      ([] ++ 0 :: ([] ++ 3 :: ([1, 2] ++ [4]))) ∧
    (moveChain ⟨5, fun i => i + 1, fun _ => 0⟩ 0 2 3).pathId 4 = 0 := by
  have h := claim_C3_moveChain_spliced ⟨5, fun i => i + 1, fun _ => 0⟩
    [] [1, 2] [] [4] [] [] [] 0 3 (by decide)
  have hgen := h.1 (by decide)
  exact ⟨hgen.1, hgen.2.2.1 4 (by decide)⟩

end OrTools
